import Mathlib

/-!
Verification of the wiki codehilite markdown extension
(src/wiki/core/markdown/mdx/codehilite.py).

The Python module contains three components:

* WikiFencedBlockPreprocessor: a regex-driven extractor that repeatedly
  finds the leftmost fenced code block in the joined text, stores a
  highlight invocation in the host stash, and splices a placeholder into
  the text at the match span.
* HiliteTreeprocessor: a tree pass that rewrites pre-blocks whose sole
  child is a code element.
* WikiCodeHiliteExtension.extendMarkdown: registrar logic that computes
  priorities by midpoint interpolation between named passes.

Python strings are modelled as List Char; the module's FENCED_BLOCK_RE
(re.MULTILINE | re.DOTALL | re.VERBOSE) is embedded as an explicit
backtracking matcher whose candidate order follows the Python regex
engine: leftmost start, greedy fence run, greedy optional groups with
backtracking, lazy hl_lines value, lazy code body, literal backreference
to the opening fence for the close.
-/

namespace WikiCodehilite

/-- The backtick character, written by code so the scanner-sensitive byte
does not appear outside strings. -/
def btick : Char := '\x60'

/-- Fence characters of the regex alternation (3+ backticks or 3+ tildes). -/
def isFenceChar (c : Char) : Bool := c == btick || c == '~'

/-- The character class [a-zA-Z0-9_+-] of the lang group. -/
def isLangChar (c : Char) : Bool :=
  c.isAlpha || c.isDigit || c == '_' || c == '+' || c == '-'

/-- Length of the maximal leading run of characters satisfying p. -/
def countWhile (p : Char → Bool) : List Char → Nat
  | [] => 0
  | x :: xs => if p x then countWhile p xs + 1 else 0

/-- Length of the maximal leading run of the character c
(used for fence runs and for the greedy space gaps of the regex). -/
def countRun (c : Char) (t : List Char) : Nat := countWhile (fun x => x == c) t

/-- The maximal leading run satisfying p, as a list. -/
def takeWhileL (p : Char → Bool) : List Char → List Char
  | [] => []
  | x :: xs => if p x then x :: takeWhileL p xs else []

/-- Consume the literal lit from the front of t (a regex literal, and the
backreference to the captured fence string). -/
def dropLit : List Char → List Char → Option (List Char)
  | [], t => some t
  | _ :: _, [] => none
  | l :: ls, c :: cs => if c == l then dropLit ls cs else none

/-- First success of f over l, in order: the backtracking engine's
first-alternative-that-completes rule. -/
def firstSome {α β : Type} (l : List α) (f : α → Option β) : Option β :=
  match l with
  | [] => none
  | x :: xs =>
    match f x with
    | some r => some r
    | none => firstSome xs f

/-- concatMap, used to enumerate backtracking candidates in engine order. -/
def concatMap {α β : Type} (f : α → List β) : List α → List β
  | [] => []
  | x :: xs => f x ++ concatMap f xs

/-- [n-1, n-2, ..., 0]: the descending lang lengths a greedy star
backtracks through. -/
def revRange : Nat → List Nat
  | 0 => []
  | n + 1 => n :: revRange n

/-- The literal hl_lines= of the regex, as characters. -/
def hlLit : List Char := ['h', 'l', '_', 'l', 'i', 'n', 'e', 's', '=']

/-- Length consumed by the optional opening brace of the header. -/
def braceFlag (t : List Char) : Nat :=
  match t with
  | c :: _ => if c == '\x7b' then 1 else 0
  | [] => 0

/-- Length consumed by the optional dot of the header. -/
def dotFlag (t : List Char) : Nat :=
  match t with
  | c :: _ => if c == '.' then 1 else 0
  | [] => 0

/-- Length consumed by the optional closing brace of the header. -/
def closeBraceFlag (t : List Char) : Nat :=
  match t with
  | c :: _ => if c == '\x7d' then 1 else 0
  | [] => 0

/-- Does a literal newline follow here? -/
def nlHead (t : List Char) : Bool :=
  match t with
  | c :: _ => c == '\n'
  | [] => false

/-- The MULTILINE dollar: end of text or a following newline. -/
def dollarAt (t : List Char) : Bool :=
  match t with
  | [] => true
  | c :: _ => c == '\n'

/-- Embeds the header coda of FENCED_BLOCK_RE after the optional hl_lines
group: [ ]* then an optional closing brace then [ ]* then a literal
newline.  Returns the consumed length.  The two space gaps are greedy and
deterministic (a skipped space could not be consumed by any later regex
element), and skipping a present closing brace is a dead branch (nothing
later consumes a brace), so no candidate list is needed here. -/
def headerTail (t : List Char) : Option Nat :=
  let s1 := countRun ' ' t
  let t1 := t.drop s1
  let b := closeBraceFlag t1
  let t2 := t1.drop b
  let s2 := countRun ' ' t2
  if nlHead (t2.drop s2) then some (s1 + b + s2 + 1) else none

/-- All ways the lazy hl_lines value (.*?) can end at a closing quote q
with the rest of the header line succeeding, in the engine's order:
shortest value first, a failed close quote being swallowed by the lazy
star.  Each entry is (captured value, consumed length after the opening
quote, through the final newline).  DOTALL lets the value span newlines. -/
def hlCandidates (q : Char) : List Char → List (List Char × Nat)
  | [] => []
  | x :: xs =>
    let rest := (hlCandidates q xs).map (fun vc => (x :: vc.1, vc.2 + 1))
    if x == q then
      match headerTail xs with
      | some k => ([], k + 1) :: rest
      | none => rest
    else rest

/-- Candidates for the part of the header after the lang group:
[ ]* then the optional quoted hl_lines attribute (all its lazy-value
candidates, in order), then the skip-the-group fallback.  Each entry is
(captured hl_lines value if the group matched, consumed length through
the final newline). -/
def afterLangCands (t : List Char) : List (Option (List Char) × Nat) :=
  let s := countRun ' ' t
  let t1 := t.drop s
  let hlCs :=
    match dropLit hlLit t1 with
    | some (q :: t2) =>
      if q == '"' || q == '\'' then
        (hlCandidates q t2).map (fun vc => (some vc.1, s + hlLit.length + 1 + vc.2))
      else []
    | _ => []
  hlCs ++
    (match headerTail t1 with
     | some k => [(none, s + k)]
     | none => [])

/-- Candidates for the whole header line after the fence run, in engine
order: [ ]*, an optional opening brace, an optional dot, then the greedy
lang star backtracking from the full alphanumeric run down to the empty
capture, each continued by afterLangCands.  Each entry is
(captured lang, captured hl_lines, consumed length through the newline).
Backing off the leading space gap only duplicates the empty-lang
candidate, and skipping a present brace or dot is a dead branch (no later
element consumes those characters), so they are consumed greedily. -/
def headerCands (t0 : List Char) : List (List Char × Option (List Char) × Nat) :=
  let s0 := countRun ' ' t0
  let t1 := t0.drop s0
  let b := braceFlag t1
  let t2 := t1.drop b
  let d := dotFlag t2
  let t3 := t2.drop d
  let lrun := takeWhileL isLangChar t3
  let t4 := t3.drop lrun.length
  concatMap
    (fun k =>
      (afterLangCands (lrun.drop k ++ t4)).map
        (fun hc => (lrun.take k, hc.1, s0 + b + d + k + hc.2)))
    (revRange (lrun.length + 1))

/-- The close-fence test at a line start: the backreference to the exact
opening fence string, then [ ]*, then end of line or end of text
(MULTILINE dollar).  Returns the consumed length (fence plus spaces). -/
def closeAt (fence t : List Char) : Option Nat :=
  match dropLit fence t with
  | some r =>
    let s := countRun ' ' r
    if dollarAt (r.drop s) then some (fence.length + s) else none
  | none => none

/-- The lazy code body (.*?) followed by the lookbehind-anchored close
fence: the code grows character by character, and the close is tried at
every line start (the lookbehind requires a preceding newline), nearest
close first.  Returns (code body, close length). -/
def closeSearchAux (fence : List Char) : List Char → Bool → Option (List Char × Nat)
  | [], ls =>
    match (if ls then closeAt fence [] else none) with
    | some k => some ([], k)
    | none => none
  | x :: xs, ls =>
    match (if ls then closeAt fence (x :: xs) else none) with
    | some k => some ([], k)
    | none =>
      (closeSearchAux fence xs (x == '\n')).map (fun p => (x :: p.1, p.2))

/-- The capture groups and extent of one FENCED_BLOCK_RE match. -/
structure MatchData where
  fence : List Char
  lang : List Char
  hl : Option (List Char)
  code : List Char
  len : Nat
deriving DecidableEq, Repr

/-- Try the whole pattern anchored at a line start: greedy fence run
(maximal: a shorter run would leave a fence character no header element
can consume), then every header candidate in backtracking order, each
continued by the lazy code / close-fence search; first full success wins,
exactly as the backtracking engine commits. -/
def matchAt (t : List Char) : Option MatchData :=
  match t with
  | [] => none
  | x :: _ =>
    if isFenceChar x then
      let n := countRun x t
      if 3 ≤ n then
        let fence := List.replicate n x
        let t0 := t.drop n
        firstSome (headerCands t0) (fun c =>
          match closeSearchAux fence (t0.drop c.2.2) true with
          | some (code, clen) =>
            some ⟨fence, c.1, c.2.1, code, n + c.2.2 + code.length + clen⟩
          | none => none)
      else none
    else none

/-- re.search over the MULTILINE text: try the anchored pattern at every
line start, leftmost first.  Returns the start offset and the match. -/
def searchAux : List Char → Bool → Option (Nat × MatchData)
  | [], _ => none
  | x :: xs, ls =>
    match (if ls then matchAt (x :: xs) else none) with
    | some md => some (0, md)
    | none => (searchAux xs (x == '\n')).map (fun r => (r.1 + 1, r.2))

/-- FENCED_BLOCK_RE.search(text): position 0 is a line start. -/
def search (t : List Char) : Option (Nat × MatchData) := searchAux t true

/-- The config bag handed to CodeHilite by highlight(). -/
structure CHConfig where
  linenums : Bool
  guess_lang : Bool
  css_class : String
  pygments_style : String
  noclasses : Bool
  use_pygments : Bool
deriving DecidableEq, Repr

/-- One invocation of highlight(code, config, tab_length, lang=...): the
external highlighter is out of scope, so the stash records the arguments
it is called with (equal invocations of the pure external function give
equal HTML).  The tree pass calls highlight without lang (Python None);
the preprocessor always passes a string. -/
structure HighlightCall where
  code : Option (List Char)
  lang : Option (List Char)
  config : CHConfig
  tab_length : Nat
deriving DecidableEq, Repr

/-- Decimal digit character. -/
def digitChar (n : Nat) : Char := Char.ofNat (48 + n)

/-- Decimal digits of n, most significant first. -/
def natDigits (n : Nat) : List Char :=
  if _h : n < 10 then [digitChar n]
  else natDigits (n / 10) ++ [digitChar (n % 10)]
  decreasing_by
    exact Nat.div_lt_self (Nat.lt_of_lt_of_le (by omega) (Nat.le_refl n)) (by omega)

/-- Modelled from the host markdown library (markdown.util.HtmlStash):
the placeholder returned by htmlStash.store for index i is
STX ++ "wzxhzdk:" ++ i ++ ETX.  Only its shape matters here: it contains
no fence characters and no newline. -/
def placeholder (i : Nat) : List Char :=
  '\x02' :: (['w', 'z', 'x', 'h', 'z', 'd', 'k', ':'] ++ natDigits i ++ ['\x03'])

/-- One iteration of the while-loop of WikiFencedBlockPreprocessor.run:
highlight the code group (lang defaults to the empty string when the
group is empty or absent), store the html, and splice
text[:m.start()] + newline + placeholder + newline + text[m.end():]. -/
def step (cfg : CHConfig) (tab : Nat) (st : List HighlightCall)
    (text : List Char) (m : Nat × MatchData) : List HighlightCall × List Char :=
  (st ++ [⟨some m.2.code, some m.2.lang, cfg, tab⟩],
   text.take m.1 ++ '\n' :: (placeholder st.length ++ '\n' :: text.drop (m.1 + m.2.len)))

/-- Number of line starts carrying a run of three or more identical fence
characters: the loop measure.  The flag says whether the current position
is a line start. -/
def fenceStarts : List Char → Bool → Nat
  | [], _ => 0
  | x :: xs, ls =>
    (if ls && (isFenceChar x && 3 ≤ countRun x (x :: xs)) then 1 else 0) +
      fenceStarts xs (x == '\n')

/-- The while 1 loop of run, made total by fuel; run supplies fuel
fenceStarts text true + 1, which the termination theorem shows reaches
the no-match fixpoint the Python loop exits at. -/
def runLoop (cfg : CHConfig) (tab : Nat) :
    Nat → List HighlightCall → List Char → List HighlightCall × List Char
  | 0, st, text => (st, text)
  | fuel + 1, st, text =>
    match search text with
    | none => (st, text)
    | some m =>
      let r := step cfg tab st text m
      runLoop cfg tab fuel r.1 r.2

/-- Python "\n".join(lines). -/
def joinLines : List (List Char) → List Char
  | [] => []
  | [l] => l
  | l :: ls => l ++ '\n' :: joinLines ls

/-- Python text.split("\n"). -/
def splitNl : List Char → List (List Char)
  | [] => [[]]
  | c :: cs =>
    match splitNl cs with
    | [] => [[c]]
    | l :: ls => if c == '\n' then [] :: l :: ls else (c :: l) :: ls

/-- WikiFencedBlockPreprocessor.run(lines): join, loop match-and-replace
to the fixpoint, split. -/
def run (cfg : CHConfig) (tab : Nat) (st : List HighlightCall)
    (lines : List (List Char)) : List HighlightCall × List (List Char) :=
  let text := joinLines lines
  let r := runLoop cfg tab (fenceStarts text true + 1) st text
  (r.1, splitNl r.2)

/-! ### The element tree and HiliteTreeprocessor -/

/-- An ElementTree element: tag, text, children (attributes and tails play
no role in this module). -/
inductive Element where
  | mk (tag : String) (text : Option (List Char)) (children : List Element)

def Element.tag : Element → String
  | .mk t _ _ => t

def Element.text : Element → Option (List Char)
  | .mk _ t _ => t

def Element.children : Element → List Element
  | .mk _ _ c => c

/-- The guard of HiliteTreeprocessor.run: the element is a pre block and
len(block) == 1 and block[0].tag == "code". -/
def isCodeBlock (tag : String) (children : List Element) : Bool :=
  tag == "pre" &&
    (match children with
     | [Element.mk ctag _ _] => ctag == "code"
     | _ => false)

/-- block[0].text of a matched pre block. -/
def soleChildText (children : List Element) : Option (List Char) :=
  match children with
  | [Element.mk _ ctext _] => ctext
  | _ => none

mutual
/-- HiliteTreeprocessor.run, rendered recursively: root.iter("pre") is a
lazy generator over the current tree, so a matched block is highlighted
(with lang omitted, Python None), cleared, retagged p and given the
placeholder as text before the generator would descend into it - its
(now removed) descendants are never visited.  Unmatched elements keep
tag and text and their children are processed in document order. -/
def hiliteEl (cfg : CHConfig) (tab : Nat) :
    Element → List HighlightCall → Element × List HighlightCall
  | Element.mk tag text children, st =>
    if isCodeBlock tag children then
      (Element.mk "p" (some (placeholder st.length)) [],
       st ++ [⟨soleChildText children, none, cfg, tab⟩])
    else
      let r := hiliteList cfg tab children st
      (Element.mk tag text r.1, r.2)

/-- Children of an unmatched element, processed left to right threading
the stash. -/
def hiliteList (cfg : CHConfig) (tab : Nat) :
    List Element → List HighlightCall → List Element × List HighlightCall
  | [], st => ([], st)
  | e :: es, st =>
    let r1 := hiliteEl cfg tab e st
    let r2 := hiliteList cfg tab es r1.2
    (r1.1 :: r2.1, r2.2)
end

mutual
/-- Does the tree contain any element the tree pass would transform? -/
def hasCodeBlock : Element → Bool
  | Element.mk tag _ children =>
    isCodeBlock tag children || hasCodeBlockList children

/-- List version of hasCodeBlock. -/
def hasCodeBlockList : List Element → Bool
  | [] => false
  | e :: es => hasCodeBlock e || hasCodeBlockList es
end

/-! ### The registrar (WikiCodeHiliteExtension.extendMarkdown)

The host pipeline's Registry is a markdown-library collaborator, modelled
from the contract in the spec: an ordered list of named passes sorted by
priority, highest priority first, insertable at an arbitrary numeric
priority and removable/queryable by name.  Priorities are rationals
(Python floats; every value arising in the claims is a small dyadic, on
which float arithmetic is exact). -/

/-- One named pass with its registration priority. -/
structure PrioItem where
  name : String
  priority : ℚ
deriving DecidableEq, Repr

/-- The priority-sorted pass list, highest priority first. -/
abbrev Registry := List PrioItem

/-- name in registry. -/
def containsName (r : Registry) (nm : String) : Bool :=
  r.any (fun it => it.name == nm)

/-- registry.get_index_for_name(name): index in the priority-sorted
list.  The host raises ValueError when the name is absent; theorems
assume presence. -/
def indexForName (r : Registry) (nm : String) : Nat :=
  r.findIdx (fun it => it.name == nm)

/-- registry._priority[i].priority (defaulting where the host would
raise IndexError). -/
def prioAt (r : Registry) (i : Nat) : ℚ :=
  ((r.get? i).map PrioItem.priority).getD 0

/-- registry.deregister(name): drop the named pass. -/
def deregister (r : Registry) (nm : String) : Registry :=
  r.filter (fun it => !(it.name == nm))

/-- Insert keeping the descending priority order; an equal-priority
existing pass stays ahead of the newcomer (stable sort). -/
def insertByPriority (it : PrioItem) : Registry → Registry
  | [] => [it]
  | x :: xs =>
    if x.priority < it.priority then it :: x :: xs
    else x :: insertByPriority it xs

/-- registry.register(item, name, priority): replaces any pass already
registered under the name, then inserts by priority. -/
def register (r : Registry) (nm : String) (p : ℚ) : Registry :=
  insertByPriority ⟨nm, p⟩ (deregister r nm)

/-- The two logger.warning calls of extendMarkdown. -/
inductive WikiWarning where
  | replacedHilite
  | replacedFencedCode
deriving DecidableEq, Repr

/-- The registrar-visible state of the markdown instance. -/
structure MdState where
  treeprocessors : Registry
  preprocessors : Registry
  warnings : List WikiWarning
deriving DecidableEq, Repr

/-- WikiCodeHiliteExtension.extendMarkdown: remove a conflicting hilite
tree pass (warning), register the tree pass at
before - (before - after)/2 around the pass named inline (with a virtual
before = after + 10 when inline is first); then remove a conflicting
fenced_code_block preprocessor (warning) and register the preprocessor at
before - (before - after)/2 around normalize_whitespace (with a virtual
after = before - 10 when normalize_whitespace is last). -/
def extendMarkdown (st : MdState) : MdState :=
  let hasH := containsName st.treeprocessors "hilite"
  let tr := if hasH then deregister st.treeprocessors "hilite" else st.treeprocessors
  let w1 : List WikiWarning := if hasH then [WikiWarning.replacedHilite] else []
  let i := indexForName tr "inline"
  let after := prioAt tr i
  let before := if 0 < i then prioAt tr (i - 1) else after + 10
  let p1 := before - (before - after) / 2
  let tr2 := register tr "hilite" p1
  let hasF := containsName st.preprocessors "fenced_code_block"
  let pr := if hasF then deregister st.preprocessors "fenced_code_block" else st.preprocessors
  let w2 : List WikiWarning := if hasF then [WikiWarning.replacedFencedCode] else []
  let j := indexForName pr "normalize_whitespace"
  let before2 := prioAt pr j
  let after2 := if j < pr.length - 1 then prioAt pr (j + 1) else before2 - 10
  let p2 := before2 - (before2 - after2) / 2
  let pr2 := register pr "fenced_code_block" p2
  ⟨tr2, pr2, st.warnings ++ w1 ++ w2⟩

/-- Priority under which a name is registered, if any. -/
def lookupPriority (r : Registry) (nm : String) : Option ℚ :=
  (r.find? (fun it => it.name == nm)).map PrioItem.priority

/-- Number of passes registered under a name. -/
def countName (r : Registry) (nm : String) : Nat :=
  (r.filter (fun it => it.name == nm)).length

/-! ### Well-formed fenced blocks (the claims' input family)

These definitions render the spec's notion of a well-formed fenced block
as concrete text, for use in theorem statements: an opening fence of n
fence characters, an optional language tag, an optional quoted hl_lines
attribute, a newline, a body of newline-terminated lines, and a closing
fence. -/

/-- The optional hl_lines attribute of a fence header, rendered as text. -/
def hlAttr : Option (Char × List Char) → List Char
  | none => []
  | some (q, v) => ' ' :: (hlLit ++ q :: (v ++ [q]))

/-- The body, each line newline-terminated. -/
def bodyText (body : List (List Char)) : List Char :=
  concatMap (fun l => l ++ ['\n']) body

/-- A well-formed fenced block: open fence, header, body, close fence of
the same character and count. -/
def fencedBlock (c : Char) (n : Nat) (lang : List Char)
    (hl : Option (Char × List Char)) (body : List (List Char)) : List Char :=
  List.replicate n c ++ lang ++ hlAttr hl ++
    '\n' :: (bodyText body ++ List.replicate n c)

/-- A body line that would close a fence of n characters c: the fence
string followed by spaces only. -/
def isCloseLine (c : Char) (n : Nat) (l : List Char) : Prop :=
  List.replicate n c <+: l ∧ ∀ x ∈ l.drop n, x = ' '

instance (c : Char) (n : Nat) (l : List Char) : Decidable (isCloseLine c n l) := by
  unfold isCloseLine; infer_instance

/-- Hypotheses making a body inert: no line contains a newline and no
line closes the fence. -/
def goodBody (c : Char) (n : Nat) (body : List (List Char)) : Prop :=
  ∀ l ∈ body, (∀ x ∈ l, x ≠ '\n') ∧ ¬ isCloseLine c n l

instance (c : Char) (n : Nat) (body : List (List Char)) : Decidable (goodBody c n body) := by
  unfold goodBody; infer_instance

/-- Hypotheses on an optional hl_lines attribute: the quote is one of the
two the regex accepts and the value does not contain its own quote. -/
def goodHl : Option (Char × List Char) → Prop
  | none => True
  | some (q, v) => (q = '"' ∨ q = '\'') ∧ ∀ x ∈ v, x ≠ q

instance (hl : Option (Char × List Char)) : Decidable (goodHl hl) := by
  unfold goodHl; cases hl <;> infer_instance

/-! ## Registry lemmas -/

theorem countName_cons (x : PrioItem) (xs : Registry) (nm : String) :
    countName (x :: xs) nm =
      (if x.name = nm then 1 else 0) + countName xs nm := by
  by_cases hxn : x.name = nm <;>
    simp [countName, List.filter_cons, hxn] <;> omega

theorem countName_insertByPriority (it : PrioItem) (r : Registry) (nm : String) :
    countName (insertByPriority it r) nm =
      countName r nm + (if it.name = nm then 1 else 0) := by
  induction r with
  | nil =>
    rw [show insertByPriority it [] = [it] from rfl, countName_cons]
    simp [countName]
  | cons x xs ih =>
    by_cases hx : x.priority < it.priority
    · simp [insertByPriority, hx, countName_cons]; omega
    · simp [insertByPriority, hx, countName_cons, ih]; omega

theorem countName_deregister (r : Registry) (nm : String) :
    countName (deregister r nm) nm = 0 := by
  induction r with
  | nil => simp [countName, deregister]
  | cons x xs ih =>
    by_cases hxn : x.name = nm <;>
      simp [deregister, List.filter_cons, hxn, countName_cons] at ih ⊢ <;>
      simpa [deregister] using ih

theorem countName_register_self (r : Registry) (nm : String) (p : ℚ) :
    countName (register r nm p) nm = 1 := by
  simp [register, countName_insertByPriority, countName_deregister]

theorem containsName_insertByPriority_self (it : PrioItem) (r : Registry) :
    containsName (insertByPriority it r) it.name = true := by
  induction r with
  | nil => simp [insertByPriority, containsName]
  | cons x xs ih =>
    by_cases hx : x.priority < it.priority <;>
      simp [insertByPriority, containsName, hx] at ih ⊢ <;> simp [ih]

theorem containsName_register_self (r : Registry) (nm : String) (p : ℚ) :
    containsName (register r nm p) nm = true :=
  containsName_insertByPriority_self ⟨nm, p⟩ (deregister r nm)

theorem lookupPriority_insertByPriority (it : PrioItem) (r : Registry)
    (h : containsName r it.name = false) :
    lookupPriority (insertByPriority it r) it.name = some it.priority := by
  induction r with
  | nil => simp [insertByPriority, lookupPriority, List.find?]
  | cons x xs ih =>
    simp [containsName] at h
    obtain ⟨h1, h2⟩ := h
    by_cases hx : x.priority < it.priority
    · simp [insertByPriority, hx, lookupPriority, List.find?]
    · have hxn : (x.name == it.name) = false := by simpa using h1
      simp only [insertByPriority, if_neg hx, lookupPriority, List.find?, hxn]
      exact ih (by simpa [containsName] using h2)

theorem containsName_deregister_self (r : Registry) (nm : String) :
    containsName (deregister r nm) nm = false := by
  induction r with
  | nil => simp [deregister, containsName]
  | cons x xs ih =>
    by_cases hxn : x.name = nm <;>
      simp [deregister, List.filter_cons, hxn, containsName] at ih ⊢ <;>
      simpa [deregister, containsName] using ih

theorem lookupPriority_register_self (r : Registry) (nm : String) (p : ℚ) :
    lookupPriority (register r nm p) nm = some p :=
  lookupPriority_insertByPriority ⟨nm, p⟩ (deregister r nm)
    (containsName_deregister_self r nm)

theorem extendMarkdown_tree_shape (st : MdState) :
    ∃ r p, (extendMarkdown st).treeprocessors = register r "hilite" p :=
  ⟨_, _, rfl⟩

theorem extendMarkdown_pre_shape (st : MdState) :
    ∃ r p, (extendMarkdown st).preprocessors = register r "fenced_code_block" p :=
  ⟨_, _, rfl⟩

theorem extendMarkdown_warnings (st : MdState) :
    (extendMarkdown st).warnings =
      st.warnings ++
        (if containsName st.treeprocessors "hilite" = true
         then [WikiWarning.replacedHilite] else []) ++
        (if containsName st.preprocessors "fenced_code_block" = true
         then [WikiWarning.replacedFencedCode] else []) := rfl

theorem indexForName_append (l l2 : Registry) (nm : String)
    (h : containsName l nm = false) :
    indexForName (l ++ l2) nm = l.length + indexForName l2 nm := by
  induction l with
  | nil => simp [indexForName]
  | cons x xs ih =>
    simp [containsName] at h
    obtain ⟨h1, h2⟩ := h
    have hxn : (x.name == nm) = false := by simpa using h1
    simp only [List.cons_append, indexForName, List.findIdx_cons, hxn, cond_false,
      List.length_cons]
    have := ih (by simpa [containsName] using h2)
    simp only [indexForName] at this
    omega

theorem prioAt_append_singleton (l : Registry) (x : PrioItem) :
    prioAt (l ++ [x]) l.length = x.priority := by
  simp [prioAt, List.get?_concat_length]

/-! ## Claim C3

Claim: if the pass named inline is first in the tree-pass list the tree
pass is registered at priority after + 10, and if normalize_whitespace is
last in the preprocessor list the preprocessing pass is registered at
priority before - 10.  The code computes before - (before - after)/2
against a virtual neighbour 10 away, which lands at +5 / -5, so the claim
is false; the counterexample and the corrected statement follow. -/

/-- Helper: the registrar's two edge cases land at after + 5 and
before - 5. -/
theorem registrarEdge (st : MdState) (a b : ℚ) (tr' pr' : Registry)
    (htr : st.treeprocessors = ⟨"inline", a⟩ :: tr')
    (hH : containsName st.treeprocessors "hilite" = false)
    (hpr : st.preprocessors = pr' ++ [⟨"normalize_whitespace", b⟩])
    (hnw : containsName pr' "normalize_whitespace" = false)
    (hF : containsName st.preprocessors "fenced_code_block" = false) :
    lookupPriority (extendMarkdown st).treeprocessors "hilite" = some (a + 5) ∧
      lookupPriority (extendMarkdown st).preprocessors "fenced_code_block" =
        some (b - 5) := by
  have hidx : indexForName st.treeprocessors "inline" = 0 := by
    simp [htr, indexForName, List.findIdx_cons]
  have hjdx : indexForName st.preprocessors "normalize_whitespace" = pr'.length := by
    rw [hpr, indexForName_append _ _ _ hnw]
    simp [indexForName, List.findIdx_cons]
  have ha : prioAt st.treeprocessors 0 = a := by simp [htr, prioAt]
  have hb : prioAt st.preprocessors pr'.length = b := by
    rw [hpr]; exact prioAt_append_singleton pr' _
  have hlen : st.preprocessors.length = pr'.length + 1 := by simp [hpr]
  constructor
  · simp only [extendMarkdown, hH, Bool.false_eq_true, if_false, hidx]
    rw [lookupPriority_register_self]
    rw [if_neg (by omega), ha]
    congr 1
    ring
  · simp only [extendMarkdown, hH, hF, Bool.false_eq_true, if_false, hjdx]
    rw [lookupPriority_register_self]
    rw [if_neg (by rw [hlen]; omega), hb]
    congr 1
    ring

/-- C3 counterexample: with inline first at priority 20 the tree pass is
registered at 25, not at 20 + 10 = 30; with normalize_whitespace last at
priority 30 the preprocessor is registered at 25, not at 30 - 10 = 20. -/
theorem c3_counterexample :
    lookupPriority
        (extendMarkdown ⟨[⟨"inline", 20⟩], [⟨"normalize_whitespace", 30⟩], []⟩).treeprocessors
        "hilite" = some 25 ∧
      (25 : ℚ) ≠ 20 + 10 ∧
      lookupPriority
        (extendMarkdown ⟨[⟨"inline", 20⟩], [⟨"normalize_whitespace", 30⟩], []⟩).preprocessors
        "fenced_code_block" = some 25 ∧
      (25 : ℚ) ≠ 30 - 10 := by
  have h := registrarEdge ⟨[⟨"inline", 20⟩], [⟨"normalize_whitespace", 30⟩], []⟩ 20 30 [] []
    rfl (by decide) rfl (by decide) (by decide)
  refine ⟨?_, by norm_num, ?_, by norm_num⟩
  · rw [h.1]; norm_num
  · rw [h.2]; norm_num

/-- C3 amended: if inline is first in the tree-pass list the tree pass is
registered at priority after + 5 (the midpoint between inline and a
virtual slot 10 above it), and if normalize_whitespace is last in the
preprocessor list the preprocessing pass is registered at before - 5
(the midpoint between it and a virtual slot 10 below it). -/
theorem c3_amended (st : MdState) (a b : ℚ) (tr' pr' : Registry)
    (htr : st.treeprocessors = ⟨"inline", a⟩ :: tr')
    (hH : containsName st.treeprocessors "hilite" = false)
    (hpr : st.preprocessors = pr' ++ [⟨"normalize_whitespace", b⟩])
    (hnw : containsName pr' "normalize_whitespace" = false)
    (hF : containsName st.preprocessors "fenced_code_block" = false) :
    lookupPriority (extendMarkdown st).treeprocessors "hilite" = some (a + 5) ∧
      lookupPriority (extendMarkdown st).preprocessors "fenced_code_block" =
        some (b - 5) :=
  registrarEdge st a b tr' pr' htr hH hpr hnw hF

/-- C3 witness. -/
theorem c3_witness :
    lookupPriority
        (extendMarkdown ⟨[⟨"inline", 20⟩], [⟨"normalize_whitespace", 30⟩], []⟩).treeprocessors
        "hilite" = some (20 + 5) ∧
      lookupPriority
        (extendMarkdown ⟨[⟨"inline", 20⟩], [⟨"normalize_whitespace", 30⟩], []⟩).preprocessors
        "fenced_code_block" = some (30 - 5) :=
  c3_amended ⟨[⟨"inline", 20⟩], [⟨"normalize_whitespace", 30⟩], []⟩ 20 30 [] []
    rfl (by decide) rfl (by decide) (by decide)

/-- Helper for C4: the midpoint computation when inline has a
predecessor. -/
theorem registrarMid (st : MdState) (i : Nat) (a b : ℚ)
    (hH : containsName st.treeprocessors "hilite" = false)
    (hidx : indexForName st.treeprocessors "inline" = i)
    (h0 : 0 < i)
    (ha : prioAt st.treeprocessors i = a)
    (hb : prioAt st.treeprocessors (i - 1) = b)
    (hab : a < b) :
    lookupPriority (extendMarkdown st).treeprocessors "hilite" = some ((a + b) / 2) ∧
      a < (a + b) / 2 ∧ (a + b) / 2 < b := by
  refine ⟨?_, by linarith, by linarith⟩
  simp only [extendMarkdown, hH, Bool.false_eq_true, if_false, hidx]
  rw [lookupPriority_register_self]
  rw [if_pos h0, ha, hb]
  congr 1
  ring

/-! ## Claim C4 -/

/-- C4: with a pass immediately before inline, the tree pass registers at
the arithmetic midpoint of the two neighbouring priorities, strictly
between them; with inline at 20 and its predecessor at 30 this is 25. -/
theorem c4_midpoint (st : MdState) (i : Nat) (a b : ℚ)
    (hH : containsName st.treeprocessors "hilite" = false)
    (hidx : indexForName st.treeprocessors "inline" = i)
    (h0 : 0 < i)
    (ha : prioAt st.treeprocessors i = a)
    (hb : prioAt st.treeprocessors (i - 1) = b)
    (hab : a < b) :
    lookupPriority (extendMarkdown st).treeprocessors "hilite" = some ((a + b) / 2) ∧
      a < (a + b) / 2 ∧ (a + b) / 2 < b :=
  registrarMid st i a b hH hidx h0 ha hb hab

/-- C4 witness: inline at 20, predecessor at 30, registered at 25. -/
theorem c4_witness :
    lookupPriority
        (extendMarkdown ⟨[⟨"other", 30⟩, ⟨"inline", 20⟩], [], []⟩).treeprocessors
        "hilite" = some ((20 + 30) / 2) ∧
      (20 : ℚ) < (20 + 30) / 2 ∧ ((20 : ℚ) + 30) / 2 < 30 :=
  c4_midpoint ⟨[⟨"other", 30⟩, ⟨"inline", 20⟩], [], []⟩ 1 20 30
    (by decide) (by decide) (by decide) rfl rfl (by norm_num)

/-! ## Claim C8 -/

/-- C8: registering over a pre-existing hilite tree pass or
fenced_code_block preprocessor is not an error: afterwards exactly one
pass is registered under each name, a second registration on the same
pipeline still leaves exactly one under each name and logs exactly one
warning per conflict (two in total), and a registration without
conflicts logs no warning. -/
theorem c8_idempotent (st : MdState)
    (hI : containsName st.treeprocessors "inline" = true)
    (hN : containsName st.preprocessors "normalize_whitespace" = true) :
    countName (extendMarkdown st).treeprocessors "hilite" = 1 ∧
      countName (extendMarkdown st).preprocessors "fenced_code_block" = 1 ∧
      countName (extendMarkdown (extendMarkdown st)).treeprocessors "hilite" = 1 ∧
      countName (extendMarkdown (extendMarkdown st)).preprocessors "fenced_code_block" = 1 ∧
      (extendMarkdown (extendMarkdown st)).warnings.length =
        (extendMarkdown st).warnings.length + 2 ∧
      (containsName st.treeprocessors "hilite" = false →
        containsName st.preprocessors "fenced_code_block" = false →
        (extendMarkdown st).warnings = st.warnings) := by
  obtain ⟨r1, p1, e1⟩ := extendMarkdown_tree_shape st
  obtain ⟨r2, p2, e2⟩ := extendMarkdown_pre_shape st
  obtain ⟨r3, p3, e3⟩ := extendMarkdown_tree_shape (extendMarkdown st)
  obtain ⟨r4, p4, e4⟩ := extendMarkdown_pre_shape (extendMarkdown st)
  refine ⟨?_, ?_, ?_, ?_, ?_, ?_⟩
  · rw [e1]; exact countName_register_self _ _ _
  · rw [e2]; exact countName_register_self _ _ _
  · rw [e3]; exact countName_register_self _ _ _
  · rw [e4]; exact countName_register_self _ _ _
  · rw [extendMarkdown_warnings (extendMarkdown st)]
    rw [e1, containsName_register_self, e2, containsName_register_self]
    simp
  · intro h1 h2
    rw [extendMarkdown_warnings st, h1, h2]
    simp

/-- C8 witness. -/
theorem c8_witness :
    countName
        (extendMarkdown ⟨[⟨"inline", 20⟩], [⟨"normalize_whitespace", 30⟩], []⟩).treeprocessors
        "hilite" = 1 ∧
      countName
        (extendMarkdown ⟨[⟨"inline", 20⟩], [⟨"normalize_whitespace", 30⟩], []⟩).preprocessors
        "fenced_code_block" = 1 ∧
      countName
        (extendMarkdown
          (extendMarkdown ⟨[⟨"inline", 20⟩], [⟨"normalize_whitespace", 30⟩], []⟩)).treeprocessors
        "hilite" = 1 ∧
      countName
        (extendMarkdown
          (extendMarkdown ⟨[⟨"inline", 20⟩], [⟨"normalize_whitespace", 30⟩], []⟩)).preprocessors
        "fenced_code_block" = 1 ∧
      (extendMarkdown
          (extendMarkdown ⟨[⟨"inline", 20⟩], [⟨"normalize_whitespace", 30⟩], []⟩)).warnings.length =
        (extendMarkdown ⟨[⟨"inline", 20⟩], [⟨"normalize_whitespace", 30⟩], []⟩).warnings.length + 2 ∧
      (containsName
          (⟨[⟨"inline", 20⟩], [⟨"normalize_whitespace", 30⟩], []⟩ : MdState).treeprocessors
          "hilite" = false →
        containsName
          (⟨[⟨"inline", 20⟩], [⟨"normalize_whitespace", 30⟩], []⟩ : MdState).preprocessors
          "fenced_code_block" = false →
        (extendMarkdown ⟨[⟨"inline", 20⟩], [⟨"normalize_whitespace", 30⟩], []⟩).warnings =
          (⟨[⟨"inline", 20⟩], [⟨"normalize_whitespace", 30⟩], []⟩ : MdState).warnings) :=
  c8_idempotent ⟨[⟨"inline", 20⟩], [⟨"normalize_whitespace", 30⟩], []⟩
    (by decide) (by decide)

/-! ## Claim C7: the tree pass -/

mutual
/-- A tree containing no single-code pre block passes through the tree
pass unchanged, stash included. -/
theorem hiliteEl_noBlock (cfg : CHConfig) (tab : Nat) :
    ∀ (e : Element) (st : List HighlightCall), hasCodeBlock e = false →
      hiliteEl cfg tab e st = (e, st)
  | Element.mk tag text children, st, h => by
    have h' : isCodeBlock tag children = false ∧ hasCodeBlockList children = false := by
      have := h
      rw [hasCodeBlock] at this
      exact ⟨by revert this; cases isCodeBlock tag children <;> simp,
             by revert this; cases hasCodeBlockList children <;> simp⟩
    rw [hiliteEl, if_neg (by rw [h'.1]; simp)]
    rw [hiliteList_noBlock cfg tab children st h'.2]

/-- List version of hiliteEl_noBlock. -/
theorem hiliteList_noBlock (cfg : CHConfig) (tab : Nat) :
    ∀ (es : List Element) (st : List HighlightCall), hasCodeBlockList es = false →
      hiliteList cfg tab es st = (es, st)
  | [], st, _ => by rw [hiliteList]
  | e :: es, st, h => by
    have h' : hasCodeBlock e = false ∧ hasCodeBlockList es = false := by
      have := h
      rw [hasCodeBlockList] at this
      exact ⟨by revert this; cases hasCodeBlock e <;> simp,
             by revert this; cases hasCodeBlockList es <;> simp⟩
    rw [hiliteList, hiliteEl_noBlock cfg tab e st h'.1,
      hiliteList_noBlock cfg tab es st h'.2]
end

/-- C7: the tree pass transforms exactly the pre elements whose sole
child is a code element - such a block becomes an empty p element whose
text is the placeholder, with one highlight invocation (code text of the
sole child, no language) stashed - while a tree containing no such block
is returned completely unchanged with the stash untouched. -/
theorem c7_tree (cfg : CHConfig) (tab : Nat) (st : List HighlightCall)
    (t ct : Option (List Char)) (cc : List Element) (e : Element)
    (h : hasCodeBlock e = false) :
    hiliteEl cfg tab (Element.mk "pre" t [Element.mk "code" ct cc]) st =
        (Element.mk "p" (some (placeholder st.length)) [],
          st ++ [⟨ct, none, cfg, tab⟩]) ∧
      hiliteEl cfg tab e st = (e, st) := by
  constructor
  · rw [hiliteEl, if_pos (by simp [isCodeBlock])]
    rfl
  · exact hiliteEl_noBlock cfg tab e st h

/-- C7 witness: a pre block with a sole code child is rewritten; a pre
element with no children is untouched. -/
theorem c7_witness :
    hiliteEl ⟨true, true, "c", "s", false, true⟩ 4
        (Element.mk "pre" none [Element.mk "code" (some ['x']) []]) [] =
        (Element.mk "p" (some (placeholder 0)) [],
          [] ++ [⟨some ['x'], none, ⟨true, true, "c", "s", false, true⟩, 4⟩]) ∧
      hiliteEl ⟨true, true, "c", "s", false, true⟩ 4 (Element.mk "pre" none []) [] =
        (Element.mk "pre" none [], []) :=
  c7_tree ⟨true, true, "c", "s", false, true⟩ 4 [] none (some ['x']) []
    (Element.mk "pre" none [])
    (by rw [hasCodeBlock, hasCodeBlockList]; simp [isCodeBlock])

/-! ## Claim C5: unterminated fences -/

theorem splitNl_ne_nil (t : List Char) : splitNl t ≠ [] := by
  induction t with
  | nil => simp [splitNl]
  | cons c cs ih =>
    rw [splitNl]
    rcases h : splitNl cs with _ | ⟨l, ls⟩
    · simp
    · by_cases hc : (c == '\n') = true <;> simp [hc]

theorem splitNl_append_noNl (l t : List Char) (r : List Char) (rs : List (List Char))
    (hsp : splitNl t = r :: rs) (hl : ∀ x ∈ l, x ≠ '\n') :
    splitNl (l ++ t) = (l ++ r) :: rs := by
  induction l with
  | nil => simpa using hsp
  | cons c cs ih =>
    have hc : (c == '\n') = false := by
      simpa using hl c (by simp)
    have ih' := ih (fun x hx => hl x (by simp [hx]))
    simp only [List.cons_append, splitNl, List.append_eq, ih', hc]
    simp

theorem splitNl_joinLines (lines : List (List Char)) (hne : lines ≠ [])
    (hnl : ∀ l ∈ lines, ∀ x ∈ l, x ≠ '\n') :
    splitNl (joinLines lines) = lines := by
  induction lines with
  | nil => exact absurd rfl hne
  | cons l ls ih =>
    rcases ls with _ | ⟨l2, ls'⟩
    · rw [show joinLines [l] = l by rw [joinLines]]
      have : splitNl (l ++ []) = (l ++ []) :: [] :=
        splitNl_append_noNl l [] [] [] (by rw [splitNl]) (hnl l (by simp))
      simpa using this
    · rw [show joinLines (l :: l2 :: ls') = l ++ '\n' :: joinLines (l2 :: ls') from rfl]
      have ihs := ih (by simp) (fun a ha x hx => hnl a (by simp [ha]) x hx)
      rcases h2 : splitNl (joinLines (l2 :: ls')) with _ | ⟨r, rs⟩
      · exact absurd h2 (splitNl_ne_nil _)
      · rw [h2] at ihs
        have hmid : splitNl ('\n' :: joinLines (l2 :: ls')) = [] :: r :: rs := by
          rw [splitNl, h2]; simp
        rw [splitNl_append_noNl l _ [] (r :: rs) hmid (hnl l (by simp))]
        simpa using ihs

/-- C5: on input whose joined text contains an opening fence run but no
match of the pattern (in particular an unterminated fence and no
well-formed block), run raises nothing and returns the stash and the
original line sequence unchanged. -/
theorem c5_unterminated (cfg : CHConfig) (tab : Nat) (st : List HighlightCall)
    (lines : List (List Char)) (hne : lines ≠ [])
    (hnl : ∀ l ∈ lines, ∀ x ∈ l, x ≠ '\n')
    (hfence : ∃ l ∈ lines, ∃ c, isFenceChar c = true ∧ List.replicate 3 c <+: l)
    (hnomatch : search (joinLines lines) = none) :
    run cfg tab st lines = (st, lines) := by
  rw [run]
  simp only [runLoop, hnomatch]
  rw [splitNl_joinLines lines hne hnl]

/-- C5 witness: an opening fence with no close is left alone. -/
theorem c5_witness :
    run ⟨true, true, "c", "s", false, true⟩ 4 []
        [['\x60', '\x60', '\x60', 'p', 'y'], ['x', '1']] =
      ([], [['\x60', '\x60', '\x60', 'p', 'y'], ['x', '1']]) :=
  c5_unterminated ⟨true, true, "c", "s", false, true⟩ 4 []
    [['\x60', '\x60', '\x60', 'p', 'y'], ['x', '1']]
    (by decide) (by decide)
    ⟨['\x60', '\x60', '\x60', 'p', 'y'], by decide, '\x60', by decide, by decide⟩
    (by decide)

/-! ## Basic scanning lemmas -/

theorem countWhile_append_all (p : Char → Bool) (u w : List Char)
    (h : ∀ x ∈ u, p x = true) :
    countWhile p (u ++ w) = u.length + countWhile p w := by
  induction u with
  | nil => simp [countWhile]
  | cons x xs ih =>
    have hx : p x = true := h x (by simp)
    simp only [List.cons_append, countWhile, hx, if_true, List.append_eq,
      List.length_cons, ih (fun y hy => h y (by simp [hy]))]
    omega

theorem countWhile_head_false (p : Char → Bool) (x : Char) (xs : List Char)
    (h : p x = false) : countWhile p (x :: xs) = 0 := by
  simp [countWhile, h]

theorem countWhile_zero (p : Char → Bool) (t : List Char)
    (h : t = [] ∨ ∃ y ys, t = y :: ys ∧ p y = false) : countWhile p t = 0 := by
  rcases h with rfl | ⟨y, ys, rfl, hy⟩
  · rfl
  · exact countWhile_head_false p y ys hy

theorem countRun_replicate_append (c : Char) (n : Nat) (w : List Char) :
    countRun c (List.replicate n c ++ w) = n + countRun c w := by
  show countWhile _ _ = n + countWhile _ _
  rw [countWhile_append_all _ _ w (fun x hx => by simp [List.eq_of_mem_replicate hx])]
  simp

theorem takeWhileL_append_stop (p : Char → Bool) (u w : List Char)
    (hu : ∀ x ∈ u, p x = true)
    (hw : w = [] ∨ ∃ y ys, w = y :: ys ∧ p y = false) :
    takeWhileL p (u ++ w) = u := by
  induction u with
  | nil =>
    rcases hw with rfl | ⟨y, ys, rfl, hy⟩
    · rfl
    · simp [takeWhileL, hy]
  | cons x xs ih =>
    have hx : p x = true := hu x (by simp)
    simp only [List.cons_append, takeWhileL, hx, if_true, List.append_eq]
    rw [ih (fun y hy => hu y (by simp [hy]))]

theorem dropLit_self_append (l t : List Char) : dropLit l (l ++ t) = some t := by
  induction l with
  | nil => rfl
  | cons x xs ih => simp [dropLit, ih]

theorem dropLit_some (l t r : List Char) (h : dropLit l t = some r) : t = l ++ r := by
  induction l generalizing t with
  | nil => simpa [dropLit] using h
  | cons x xs ih =>
    cases t with
    | nil => simp [dropLit] at h
    | cons c cs =>
      by_cases hc : (c == x) = true
      · rw [dropLit, if_pos hc] at h
        have := ih cs h
        simp only [List.cons_append, this]
        have : c = x := by simpa using hc
        rw [this]
      · rw [dropLit, if_neg hc] at h
        exact absurd h (by simp)

theorem exists_first_not (p : Char → Bool) (l : List Char)
    (h : ¬ ∀ x ∈ l, p x = true) :
    ∃ u x w, l = u ++ x :: w ∧ (∀ y ∈ u, p y = true) ∧ p x = false := by
  induction l with
  | nil => exact absurd (by simp) h
  | cons c cs ih =>
    by_cases hc : p c = true
    · have : ¬ ∀ x ∈ cs, p x = true := by
        intro hall
        exact h (fun x hx => by
          rcases List.mem_cons.mp hx with rfl | hxs
          · exact hc
          · exact hall x hxs)
      obtain ⟨u, x, w, rfl, hu, hx⟩ := ih this
      exact ⟨c :: u, x, w, rfl, fun y hy => by
        rcases List.mem_cons.mp hy with rfl | hyu
        · exact hc
        · exact hu y hyu, hx⟩
    · exact ⟨[], c, cs, rfl, by simp, by simpa using hc⟩

/-! ## Header parsing on well-formed blocks -/

theorem isLangChar_ne_space (x : Char) (h : isLangChar x = true) : (x == ' ') = false := by
  by_contra hx
  have : x = ' ' := by simpa using hx
  subst this
  simp [isLangChar] at h

theorem isLangChar_ne (x y : Char) (h : isLangChar x = true) (hy : isLangChar y = false) :
    (x == y) = false := by
  by_contra hx
  have : x = y := by simpa using hx
  subst this
  rw [h] at hy
  exact absurd hy (by simp)

theorem headerTail_newline (t : List Char) : headerTail ('\n' :: t) = some 1 := rfl

theorem hlCandidates_first (q : Char) (v t : List Char) (k : Nat)
    (hv : ∀ x ∈ v, x ≠ q) (ht : headerTail t = some k) :
    ∃ more, hlCandidates q (v ++ q :: t) = (v, k + 1 + v.length) :: more := by
  induction v with
  | nil =>
    refine ⟨(hlCandidates q t).map (fun vc => (q :: vc.1, vc.2 + 1)), ?_⟩
    rw [List.nil_append, hlCandidates]
    simp [ht]
  | cons x xs ih =>
    obtain ⟨more, hm⟩ := ih (fun y hy => hv y (by simp [hy]))
    have hx : (x == q) = false := by simpa using hv x (by simp)
    refine ⟨more.map (fun vc => (x :: vc.1, vc.2 + 1)), ?_⟩
    rw [List.cons_append, hlCandidates]
    simp only [hx, Bool.false_eq_true, if_false, List.append_eq, hm, List.map_cons]
    simp
    omega

theorem afterLangCands_newline (t : List Char) :
    afterLangCands ('\n' :: t) = [(none, 1)] := rfl

theorem countRun_head_ne (c x : Char) (xs : List Char) (h : (x == c) = false) :
    countRun c (x :: xs) = 0 :=
  countWhile_head_false _ x xs h

theorem afterLangCands_hl (sp : Nat) (q : Char) (v t : List Char)
    (hq : q = '"' ∨ q = '\'') (hv : ∀ x ∈ v, x ≠ q) :
    ∃ more,
      afterLangCands (List.replicate sp ' ' ++ (hlLit ++ q :: (v ++ q :: '\n' :: t))) =
        (some v, sp + (v.length + 12)) :: more := by
  obtain ⟨more, hm⟩ := hlCandidates_first q v ('\n' :: t) 1 hv (headerTail_newline t)
  have hq' : (q == '"' || q == '\'') = true := by
    rcases hq with rfl | rfl <;> simp
  have hs : countRun ' ' (List.replicate sp ' ' ++ (hlLit ++ q :: (v ++ q :: '\n' :: t))) = sp := by
    show countWhile _ _ = sp
    rw [countWhile_append_all _ _ _ (fun x hx => by simp [List.eq_of_mem_replicate hx])]
    rw [show countWhile (fun x => x == ' ') (hlLit ++ q :: (v ++ q :: '\n' :: t)) = 0 from rfl]
    simp
  have hdrop : (List.replicate sp ' ' ++ (hlLit ++ q :: (v ++ q :: '\n' :: t))).drop sp =
      hlLit ++ q :: (v ++ q :: '\n' :: t) := by
    have h := List.drop_left (List.replicate sp ' ') (hlLit ++ q :: (v ++ q :: '\n' :: t))
    rwa [List.length_replicate] at h
  refine ⟨more.map (fun vc => (some vc.1, sp + hlLit.length + 1 + vc.2)), ?_⟩
  rw [afterLangCands]
  simp only [hs, hdrop, dropLit_self_append, hq', if_true, hm, List.map_cons]
  rw [show headerTail (hlLit ++ q :: (v ++ q :: '\n' :: t)) = none from rfl]
  simp only [List.append_nil, List.cons.injEq, Prod.mk.injEq]
  refine ⟨⟨by simp, by simp [hlLit]; omega⟩, by simp⟩

theorem countRun_space_langhead (lang : List Char)
    (hlang : ∀ x ∈ lang, isLangChar x = true) (y : Char) (ys : List Char)
    (hy : (y == ' ') = false) : countRun ' ' (lang ++ y :: ys) = 0 := by
  cases lang with
  | nil => exact countRun_head_ne ' ' y ys hy
  | cons z zs =>
    show countRun ' ' (z :: (zs ++ y :: ys)) = 0
    exact countRun_head_ne ' ' z _ (isLangChar_ne_space z (hlang z (by simp)))

theorem braceFlag_langhead (lang : List Char)
    (hlang : ∀ x ∈ lang, isLangChar x = true) (y : Char) (ys : List Char)
    (hy : (y == '\x7b') = false) : braceFlag (lang ++ y :: ys) = 0 := by
  cases lang with
  | nil => simp [braceFlag, hy]
  | cons z zs =>
    have hz : (z == '\x7b') = false :=
      isLangChar_ne z '\x7b' (hlang z (by simp)) (by decide)
    show braceFlag (z :: (zs ++ y :: ys)) = 0
    simp [braceFlag, hz]

theorem dotFlag_langhead (lang : List Char)
    (hlang : ∀ x ∈ lang, isLangChar x = true) (y : Char) (ys : List Char)
    (hy : (y == '.') = false) : dotFlag (lang ++ y :: ys) = 0 := by
  cases lang with
  | nil => simp [dotFlag, hy]
  | cons z zs =>
    have hz : (z == '.') = false :=
      isLangChar_ne z '.' (hlang z (by simp)) (by decide)
    show dotFlag (z :: (zs ++ y :: ys)) = 0
    simp [dotFlag, hz]

theorem headerCands_family (lang : List Char)
    (hlang : ∀ x ∈ lang, isLangChar x = true)
    (hl : Option (Char × List Char)) (hhl : goodHl hl) (t : List Char) :
    ∃ more, headerCands (lang ++ (hlAttr hl ++ '\n' :: t)) =
      (lang, Option.map Prod.snd hl, lang.length + ((hlAttr hl).length + 1)) :: more := by
  cases hl with
  | none =>
    simp only [hlAttr, List.nil_append, Option.map_none', List.length_nil]
    simp only [headerCands]
    rw [countRun_space_langhead lang hlang '\n' t (by decide), List.drop_zero,
      braceFlag_langhead lang hlang '\n' t (by decide), List.drop_zero,
      dotFlag_langhead lang hlang '\n' t (by decide), List.drop_zero,
      takeWhileL_append_stop isLangChar lang ('\n' :: t) hlang
        (Or.inr ⟨'\n', t, rfl, by decide⟩),
      List.drop_left, revRange, concatMap,
      List.drop_length, List.nil_append, afterLangCands_newline, List.take_length]
    simp only [List.map_cons, List.map_nil, List.singleton_append]
    rw [(by omega : 0 + 0 + 0 + lang.length + 1 = lang.length + (0 + 1))]
    exact ⟨_, rfl⟩
  | some qv =>
    obtain ⟨q, v⟩ := qv
    have hq : q = '"' ∨ q = '\'' := hhl.1
    have hv : ∀ x ∈ v, x ≠ q := hhl.2
    simp only [hlAttr, Option.map_some']
    cases lang with
    | nil =>
      obtain ⟨more0, hm0⟩ := afterLangCands_hl 0 q v t hq hv
      simp only [List.replicate, List.nil_append, Nat.zero_add] at hm0
      simp only [List.nil_append, List.length_nil, List.cons_append, List.append_assoc,
        List.singleton_append]
      simp only [headerCands]
      rw [show countRun ' ' (' ' :: (hlLit ++ (q :: (v ++ (q :: ('\n' :: t)))))) = 1 from rfl]
      rw [show List.drop 1 (' ' :: (hlLit ++ (q :: (v ++ (q :: ('\n' :: t)))))) =
        hlLit ++ (q :: (v ++ (q :: ('\n' :: t)))) from rfl]
      rw [show braceFlag (hlLit ++ (q :: (v ++ (q :: ('\n' :: t))))) = 0 from rfl,
        List.drop_zero]
      rw [show dotFlag (hlLit ++ (q :: (v ++ (q :: ('\n' :: t))))) = 0 from rfl,
        List.drop_zero]
      rw [show takeWhileL isLangChar (hlLit ++ (q :: (v ++ (q :: ('\n' :: t))))) =
        ['h', 'l', '_', 'l', 'i', 'n', 'e', 's'] from rfl]
      rw [show List.length ['h', 'l', '_', 'l', 'i', 'n', 'e', 's'] = 8 from rfl]
      rw [show List.drop 8 (hlLit ++ (q :: (v ++ (q :: ('\n' :: t))))) =
        '=' :: (q :: (v ++ (q :: ('\n' :: t)))) from rfl]
      rw [show revRange (8 + 1) = [8, 7, 6, 5, 4, 3, 2, 1, 0] from rfl]
      simp only [concatMap]
      rw [show afterLangCands (List.drop 8 ['h', 'l', '_', 'l', 'i', 'n', 'e', 's'] ++
        ('=' :: (q :: (v ++ (q :: ('\n' :: t)))))) = [] from rfl]
      rw [show afterLangCands (List.drop 7 ['h', 'l', '_', 'l', 'i', 'n', 'e', 's'] ++
        ('=' :: (q :: (v ++ (q :: ('\n' :: t)))))) = [] from rfl]
      rw [show afterLangCands (List.drop 6 ['h', 'l', '_', 'l', 'i', 'n', 'e', 's'] ++
        ('=' :: (q :: (v ++ (q :: ('\n' :: t)))))) = [] from rfl]
      rw [show afterLangCands (List.drop 5 ['h', 'l', '_', 'l', 'i', 'n', 'e', 's'] ++
        ('=' :: (q :: (v ++ (q :: ('\n' :: t)))))) = [] from rfl]
      rw [show afterLangCands (List.drop 4 ['h', 'l', '_', 'l', 'i', 'n', 'e', 's'] ++
        ('=' :: (q :: (v ++ (q :: ('\n' :: t)))))) = [] from rfl]
      rw [show afterLangCands (List.drop 3 ['h', 'l', '_', 'l', 'i', 'n', 'e', 's'] ++
        ('=' :: (q :: (v ++ (q :: ('\n' :: t)))))) = [] from rfl]
      rw [show afterLangCands (List.drop 2 ['h', 'l', '_', 'l', 'i', 'n', 'e', 's'] ++
        ('=' :: (q :: (v ++ (q :: ('\n' :: t)))))) = [] from rfl]
      rw [show afterLangCands (List.drop 1 ['h', 'l', '_', 'l', 'i', 'n', 'e', 's'] ++
        ('=' :: (q :: (v ++ (q :: ('\n' :: t)))))) = [] from rfl]
      rw [show List.drop 0 ['h', 'l', '_', 'l', 'i', 'n', 'e', 's'] ++
        ('=' :: (q :: (v ++ (q :: ('\n' :: t))))) =
        hlLit ++ q :: (v ++ q :: '\n' :: t) from rfl]
      rw [hm0]
      simp only [List.map_cons, List.map_nil, List.take_zero, List.nil_append,
        List.append_nil, List.map_map, List.singleton_append]
      exact ⟨_, by
        congr 2
        simp [hlLit]
        omega⟩
    | cons x lang' =>
      obtain ⟨more0, hm0⟩ := afterLangCands_hl 1 q v t hq hv
      simp only [List.replicate, List.nil_append, List.singleton_append] at hm0
      have hx : isLangChar x = true := hlang x (by simp)
      have hs0 : countRun ' '
          (x :: (lang' ++ (' ' :: (hlLit ++ (q :: (v ++ (q :: ('\n' :: t)))))))) = 0 :=
        countRun_head_ne ' ' x _ (isLangChar_ne_space x hx)
      have hb : braceFlag
          (x :: (lang' ++ (' ' :: (hlLit ++ (q :: (v ++ (q :: ('\n' :: t)))))))) = 0 := by
        have hxb : (x == '\x7b') = false := isLangChar_ne x '\x7b' hx (by decide)
        simp [braceFlag, hxb]
      have hd : dotFlag
          (x :: (lang' ++ (' ' :: (hlLit ++ (q :: (v ++ (q :: ('\n' :: t)))))))) = 0 := by
        have hxd : (x == '.') = false := isLangChar_ne x '.' hx (by decide)
        simp [dotFlag, hxd]
      have h4 : takeWhileL isLangChar
          (x :: (lang' ++ (' ' :: (hlLit ++ (q :: (v ++ (q :: ('\n' :: t)))))))) =
          x :: lang' := by
        have := takeWhileL_append_stop isLangChar (x :: lang')
          (' ' :: (hlLit ++ (q :: (v ++ (q :: ('\n' :: t)))))) hlang
          (Or.inr ⟨' ', _, rfl, by decide⟩)
        simpa using this
      have h5 : (x :: (lang' ++ (' ' :: (hlLit ++ (q :: (v ++ (q :: ('\n' :: t)))))))).drop
          (x :: lang').length = ' ' :: (hlLit ++ (q :: (v ++ (q :: ('\n' :: t))))) := by
        have := List.drop_left (x :: lang')
          (' ' :: (hlLit ++ (q :: (v ++ (q :: ('\n' :: t))))))
        simpa using this
      simp only [List.cons_append, List.append_assoc, List.singleton_append,
        List.nil_append]
      simp only [headerCands]
      rw [hs0, List.drop_zero, hb, List.drop_zero, hd, List.drop_zero, h4, h5,
        revRange, concatMap, List.drop_length, List.nil_append, hm0, List.take_length]
      simp only [List.map_cons, List.singleton_append, List.cons_append]
      exact ⟨_, by
        congr 2
        simp [hlLit]
        omega⟩


/-! ## Close-fence search on well-formed blocks -/

theorem closeAt_self (fence tail : List Char)
    (htail : tail = [] ∨ ∃ r, tail = '\n' :: r) :
    closeAt fence (fence ++ tail) = some fence.length := by
  have hs : countRun ' ' tail = 0 := by
    refine countWhile_zero _ _ ?_
    rcases htail with rfl | ⟨r, rfl⟩
    · exact Or.inl rfl
    · exact Or.inr ⟨'\n', r, rfl, by decide⟩
  have hdollar : dollarAt tail = true := by
    rcases htail with rfl | ⟨r, rfl⟩ <;> simp [dollarAt]
  simp only [closeAt, dropLit_self_append, hs, List.drop_zero, hdollar, if_true]
  simp

theorem replicate_get? (c : Char) (n i : Nat) (h : i < n) :
    (List.replicate n c).get? i = some c := by
  induction n generalizing i with
  | zero => omega
  | succ m ih =>
    cases i with
    | zero => simp [List.replicate]
    | succ j =>
      rw [List.replicate]
      show (List.replicate m c).get? j = some c
      exact ih j (by omega)

theorem bodyText_cons (l : List Char) (b : List (List Char)) :
    bodyText (l :: b) = l ++ '\n' :: bodyText b := by
  show concatMap _ _ = _
  rw [concatMap]
  simp
  rfl

theorem closeAt_notClose (c : Char) (n : Nat) (hcn : (c == '\n') = false)
    (l : List Char) (hlnl : ∀ x ∈ l, x ≠ '\n') (hncl : ¬ isCloseLine c n l)
    (rest : List Char) :
    closeAt (List.replicate n c) (l ++ '\n' :: rest) = none := by
  cases h : dropLit (List.replicate n c) (l ++ '\n' :: rest) with
  | none => simp only [closeAt, h]
  | some r =>
    have hdecomp := dropLit_some _ _ _ h
    have hnle : n ≤ l.length := by
      by_contra hgt
      push_neg at hgt
      have hg1 : (l ++ '\n' :: rest).get? l.length = some '\n' := by
        rw [List.get?_append_right (Nat.le_refl _)]
        simp
      have hg2 : (List.replicate n c ++ r).get? l.length = some c := by
        rw [List.get?_append (by simp; omega)]
        exact replicate_get? c n l.length hgt
      rw [hdecomp, hg2] at hg1
      have : c = '\n' := by simpa using hg1
      rw [this] at hcn
      simp at hcn
    have htakel : l.take n = List.replicate n c := by
      have h1 : (l ++ '\n' :: rest).take n = l.take n :=
        List.take_append_of_le_length hnle
      have h2 : (List.replicate n c ++ r).take n = List.replicate n c := by
        rw [List.take_append_of_le_length (by simp)]
        simp
      rw [← h1, hdecomp, h2]
    have hlpre : l = List.replicate n c ++ l.drop n := by
      conv_lhs => rw [← List.take_append_drop n l]
      rw [htakel]
    have hnall : ¬ ∀ x ∈ l.drop n, (x == ' ') = true := by
      intro hall
      exact hncl ⟨⟨l.drop n, hlpre.symm⟩, fun x hx => by simpa using hall x hx⟩
    obtain ⟨sp, y, d', hdeq, hsp, hy⟩ := exists_first_not _ _ hnall
    have hr : r = (l.drop n ++ '\n' :: rest) := by
      have : List.replicate n c ++ (l.drop n ++ '\n' :: rest) = List.replicate n c ++ r := by
        rw [← List.append_assoc, ← hlpre, hdecomp]
      exact (List.append_cancel_left this).symm
    have hy' : y ∈ l := by
      rw [hlpre, hdeq]
      simp
    have hcount : countRun ' ' r = sp.length := by
      rw [hr, hdeq]
      show countWhile _ _ = _
      rw [List.append_assoc, List.cons_append,
        countWhile_append_all _ _ _ (fun x hx => hsp x hx)]
      rw [countWhile_head_false (fun x => x == ' ') y (d' ++ '\n' :: rest) hy]
      omega
    have hdrop : r.drop sp.length = y :: (d' ++ '\n' :: rest) := by
      rw [hr, hdeq, List.append_assoc, List.cons_append]
      have := List.drop_left sp (y :: (d' ++ '\n' :: rest))
      simpa using this
    have hynl : (y == '\n') = false := by
      simpa using hlnl y hy'
    simp only [closeAt, h, hcount, hdrop, dollarAt, hynl, Bool.false_eq_true, if_false]

theorem closeSearchAux_hit (fence u : List Char) (k : Nat)
    (h : closeAt fence u = some k) :
    closeSearchAux fence u true = some ([], k) := by
  cases u with
  | nil => simp [closeSearchAux, h]
  | cons x xs => simp [closeSearchAux, h]

theorem closeSearchAux_cons_false (fence : List Char) (x : Char) (xs : List Char) :
    closeSearchAux fence (x :: xs) false =
      (closeSearchAux fence xs (x == '\n')).map (fun p => (x :: p.1, p.2)) := by
  simp only [closeSearchAux]
  simp

theorem closeSearchAux_walk (fence u : List Char) (hnl : ∀ x ∈ u, x ≠ '\n')
    (w : List Char) :
    closeSearchAux fence (u ++ '\n' :: w) false =
      (closeSearchAux fence w true).map (fun p => (u ++ '\n' :: p.1, p.2)) := by
  induction u with
  | nil =>
    rw [List.nil_append, closeSearchAux_cons_false]
    simp
  | cons x xs ih =>
    have hx : (x == '\n') = false := by simpa using hnl x (by simp)
    rw [List.cons_append, closeSearchAux_cons_false, hx,
      ih (fun y hy => hnl y (by simp [hy]))]
    cases closeSearchAux fence w true <;> simp

theorem closeSearchAux_skip_line (fence l : List Char) (rest : List Char)
    (hca : closeAt fence (l ++ '\n' :: rest) = none)
    (hnl : ∀ x ∈ l, x ≠ '\n') :
    closeSearchAux fence (l ++ '\n' :: rest) true =
      (closeSearchAux fence rest true).map (fun p => (l ++ '\n' :: p.1, p.2)) := by
  cases l with
  | nil =>
    rw [List.nil_append] at hca ⊢
    rw [closeSearchAux]
    simp only [if_true, hca]
    cases hw : closeSearchAux fence rest ('\n' == '\n') with
    | none => simp_all
    | some p => simp_all
  | cons x xs =>
    have hx : (x == '\n') = false := by simpa using hnl x (by simp)
    rw [List.cons_append] at hca ⊢
    rw [closeSearchAux]
    simp only [if_true, hca, hx]
    rw [closeSearchAux_walk fence xs (fun y hy => hnl y (by simp [hy])) rest]
    cases closeSearchAux fence rest true <;> simp

theorem closeSearch_body (c : Char) (n : Nat) (hcn : (c == '\n') = false)
    (body : List (List Char)) (hbody : goodBody c n body)
    (tail : List Char) (htail : tail = [] ∨ ∃ r, tail = '\n' :: r) :
    closeSearchAux (List.replicate n c)
        (bodyText body ++ (List.replicate n c ++ tail)) true =
      some (bodyText body, n) := by
  induction body with
  | nil =>
    rw [show bodyText [] = [] from rfl, List.nil_append]
    have := closeAt_self (List.replicate n c) tail htail
    rw [closeSearchAux_hit _ _ _ this]
    simp
  | cons l body' ih =>
    have hl := hbody l (by simp)
    have hrest : goodBody c n body' := fun a ha => hbody a (by simp [ha])
    have hbt : bodyText (l :: body') ++ (List.replicate n c ++ tail) =
        l ++ '\n' :: (bodyText body' ++ (List.replicate n c ++ tail)) := by
      rw [bodyText_cons]
      simp [List.append_assoc]
    rw [hbt]
    rw [closeSearchAux_skip_line _ _ _
      (closeAt_notClose c n hcn l (fun x hx => hl.1 x hx) hl.2 _)
      (fun x hx => hl.1 x hx)]
    rw [ih hrest]
    simp only [Option.map_some']
    rw [bodyText_cons]

/-! ## The full pattern on well-formed blocks -/

theorem countRun_fencedBlock_rest (c : Char) (hc : c = btick ∨ c = '~')
    (lang : List Char) (hlang : ∀ x ∈ lang, isLangChar x = true)
    (hl : Option (Char × List Char)) (Z : List Char) :
    countRun c (lang ++ (hlAttr hl ++ '\n' :: Z)) = 0 := by
  have hcLang : isLangChar c = false := by rcases hc with rfl | rfl <;> decide
  cases lang with
  | cons x xs =>
    show countRun c (x :: (xs ++ (hlAttr hl ++ '\n' :: Z))) = 0
    exact countRun_head_ne c x _ (isLangChar_ne x c (hlang x (by simp)) hcLang)
  | nil =>
    cases hl with
    | none =>
      show countRun c ('\n' :: Z) = 0
      exact countRun_head_ne c '\n' Z (by rcases hc with rfl | rfl <;> decide)
    | some qv =>
      show countRun c (' ' :: (hlLit ++ qv.1 :: (qv.2 ++ [qv.1]) ++ '\n' :: Z)) = 0
      exact countRun_head_ne c ' ' _ (by rcases hc with rfl | rfl <;> decide)

theorem matchAt_fencedBlock (c : Char) (n : Nat) (lang : List Char)
    (hl : Option (Char × List Char)) (body : List (List Char)) (tail : List Char)
    (hc : c = btick ∨ c = '~') (hn : 3 ≤ n)
    (hlang : ∀ x ∈ lang, isLangChar x = true) (hhl : goodHl hl)
    (hbody : goodBody c n body)
    (htail : tail = [] ∨ ∃ r, tail = '\n' :: r) :
    matchAt (fencedBlock c n lang hl body ++ tail) =
      some ⟨List.replicate n c, lang, Option.map Prod.snd hl, bodyText body,
        (fencedBlock c n lang hl body).length⟩ := by
  have hfc : isFenceChar c = true := by rcases hc with rfl | rfl <;> rfl
  have hcn : (c == '\n') = false := by rcases hc with rfl | rfl <;> decide
  obtain ⟨m, rfl⟩ : ∃ m, n = m + 3 := ⟨n - 3, by omega⟩
  have hT : fencedBlock c (m + 3) lang hl body ++ tail =
      List.replicate (m + 3) c ++
        (lang ++ (hlAttr hl ++ '\n' ::
          (bodyText body ++ (List.replicate (m + 3) c ++ tail)))) := by
    simp [fencedBlock, List.append_assoc]
  have hlen : (fencedBlock c (m + 3) lang hl body).length =
      (m + 3) + (lang.length + ((hlAttr hl).length + 1)) +
        (bodyText body).length + (m + 3) := by
    simp [fencedBlock]
    omega
  rw [hT]
  have hcons : List.replicate (m + 3) c ++
      (lang ++ (hlAttr hl ++ '\n' ::
        (bodyText body ++ (List.replicate (m + 3) c ++ tail)))) =
      c :: (List.replicate (m + 2) c ++
        (lang ++ (hlAttr hl ++ '\n' ::
          (bodyText body ++ (List.replicate (m + 3) c ++ tail))))) := by
    rw [show m + 3 = (m + 2) + 1 from rfl, List.replicate_succ]
    rfl
  rw [hcons]
  simp only [matchAt]
  have hcount : countRun c (c :: (List.replicate (m + 2) c ++
      (lang ++ (hlAttr hl ++ '\n' ::
        (bodyText body ++ (List.replicate (m + 3) c ++ tail)))))) = m + 3 := by
    rw [← hcons]
    rw [countRun_replicate_append,
      countRun_fencedBlock_rest c hc lang hlang hl _]
  rw [hfc, hcount]
  simp only [if_true, if_pos (show 3 ≤ m + 3 by omega)]
  have hdrop3 : (c :: (List.replicate (m + 2) c ++
      (lang ++ (hlAttr hl ++ '\n' ::
        (bodyText body ++ (List.replicate (m + 3) c ++ tail)))))).drop (m + 3) =
      lang ++ (hlAttr hl ++ '\n' ::
        (bodyText body ++ (List.replicate (m + 3) c ++ tail))) := by
    rw [← hcons]
    have := List.drop_left (List.replicate (m + 3) c)
      (lang ++ (hlAttr hl ++ '\n' ::
        (bodyText body ++ (List.replicate (m + 3) c ++ tail))))
    simpa using this
  rw [hdrop3]
  obtain ⟨more, hcands⟩ := headerCands_family lang hlang hl hhl
    (bodyText body ++ (List.replicate (m + 3) c ++ tail))
  rw [hcands, firstSome]
  have hdropHdr : (lang ++ (hlAttr hl ++ '\n' ::
      (bodyText body ++ (List.replicate (m + 3) c ++ tail)))).drop
        (lang.length + ((hlAttr hl).length + 1)) =
      bodyText body ++ (List.replicate (m + 3) c ++ tail) := by
    have hsplit : lang ++ (hlAttr hl ++ '\n' ::
        (bodyText body ++ (List.replicate (m + 3) c ++ tail))) =
        (lang ++ (hlAttr hl ++ ['\n'])) ++
          (bodyText body ++ (List.replicate (m + 3) c ++ tail)) := by
      simp [List.append_assoc]
    have hlen2 : (lang ++ (hlAttr hl ++ ['\n'])).length =
        lang.length + ((hlAttr hl).length + 1) := by simp
    rw [hsplit, ← hlen2]
    exact List.drop_left _ _
  simp only [hdropHdr]
  rw [closeSearch_body c (m + 3) hcn body hbody tail htail]
  simp only [Option.some.injEq]
  congr 1
  rw [hlen]

theorem search_fencedBlock (c : Char) (n : Nat) (lang : List Char)
    (hl : Option (Char × List Char)) (body : List (List Char)) (tail : List Char)
    (hc : c = btick ∨ c = '~') (hn : 3 ≤ n)
    (hlang : ∀ x ∈ lang, isLangChar x = true) (hhl : goodHl hl)
    (hbody : goodBody c n body)
    (htail : tail = [] ∨ ∃ r, tail = '\n' :: r) :
    search (fencedBlock c n lang hl body ++ tail) =
      some (0, ⟨List.replicate n c, lang, Option.map Prod.snd hl, bodyText body,
        (fencedBlock c n lang hl body).length⟩) := by
  have hmatch := matchAt_fencedBlock c n lang hl body tail hc hn hlang hhl hbody htail
  obtain ⟨m, rfl⟩ : ∃ m, n = m + 3 := ⟨n - 3, by omega⟩
  have hcons : fencedBlock c (m + 3) lang hl body ++ tail =
      c :: (List.replicate (m + 2) c ++
        (lang ++ hlAttr hl ++ '\n' :: (bodyText body ++ List.replicate (m + 3) c) ++ tail)) := by
    simp [fencedBlock, List.append_assoc]
    rw [show m + 3 = (m + 2) + 1 from rfl, List.replicate_succ]
    simp [List.append_assoc]
  rw [hcons] at hmatch ⊢
  rw [search, searchAux]
  simp only [if_true, hmatch]

/-! ## Claim C1

Claim: a closing fence of the same character and equal-or-greater length
matches (e.g. open with three backticks, close with four).  The close of
FENCED_BLOCK_RE is a backreference to the exact opening fence string
followed by spaces and end of line, so a longer close does not match;
the counterexample and the equal-length statement follow. -/

/-- C1 counterexample: a block opened with three backticks and closed
with four backticks is not matched, and run leaves the lines unchanged. -/
theorem c1_counterexample :
    search (List.replicate 3 btick ++ '\n' :: ('x' :: '\n' :: List.replicate 4 btick)) =
        none ∧
      run ⟨true, true, "c", "s", false, true⟩ 4 []
          (splitNl (List.replicate 3 btick ++ '\n' :: ('x' :: '\n' :: List.replicate 4 btick))) =
        ([], splitNl (List.replicate 3 btick ++ '\n' :: ('x' :: '\n' :: List.replicate 4 btick))) := by
  constructor <;> decide

/-- C1 amended: for every well-formed fenced block whose closing fence
uses the same marker character and the same length as the opening fence,
the pattern matches the whole block (capturing its code body) and the
run step replaces it with a placeholder. -/
theorem c1_amended (cfg : CHConfig) (tab : Nat) (st : List HighlightCall)
    (c : Char) (n : Nat) (lang : List Char) (hl : Option (Char × List Char))
    (body : List (List Char)) (tail : List Char)
    (hc : c = btick ∨ c = '~') (hn : 3 ≤ n)
    (hlang : ∀ x ∈ lang, isLangChar x = true) (hhl : goodHl hl)
    (hbody : goodBody c n body) (htail : tail = [] ∨ ∃ r, tail = '\n' :: r) :
    ∃ md, search (fencedBlock c n lang hl body ++ tail) = some (0, md) ∧
      md.fence = List.replicate n c ∧ md.code = bodyText body ∧
      md.len = (fencedBlock c n lang hl body).length ∧
      (step cfg tab st (fencedBlock c n lang hl body ++ tail) (0, md)).2 =
        '\n' :: (placeholder st.length ++ '\n' :: tail) := by
  refine ⟨_, search_fencedBlock c n lang hl body tail hc hn hlang hhl hbody htail,
    rfl, rfl, rfl, ?_⟩
  simp only [step, List.take_zero, List.nil_append, Nat.zero_add]
  have hdrop : (fencedBlock c n lang hl body ++ tail).drop
      (fencedBlock c n lang hl body).length = tail := List.drop_left _ _
  rw [hdrop]

/-- C1 witness. -/
theorem c1_witness :
    ∃ md, search (fencedBlock btick 3 ['p', 'y'] none [['x']] ++ []) = some (0, md) ∧
      md.fence = List.replicate 3 btick ∧ md.code = bodyText [['x']] ∧
      md.len = (fencedBlock btick 3 ['p', 'y'] none [['x']]).length ∧
      (step ⟨true, true, "c", "s", false, true⟩ 4 []
          (fencedBlock btick 3 ['p', 'y'] none [['x']] ++ []) (0, md)).2 =
        '\n' :: (placeholder 0 ++ '\n' :: []) :=
  c1_amended ⟨true, true, "c", "s", false, true⟩ 4 [] btick 3 ['p', 'y'] none
    [['x']] [] (Or.inl rfl) (by decide) (by decide) (by decide) (by decide)
    (Or.inl rfl)

/-! ## Claim C6 -/

/-- C6: for every matched fenced block, the language handed to the
highlighter is the matched language tag when one is present and the
empty string when none is written (the lang parameter below covers both,
the empty list being the empty string). -/
theorem c6_lang (cfg : CHConfig) (tab : Nat) (st : List HighlightCall)
    (c : Char) (n : Nat) (lang : List Char) (hl : Option (Char × List Char))
    (body : List (List Char)) (tail : List Char)
    (hc : c = btick ∨ c = '~') (hn : 3 ≤ n)
    (hlang : ∀ x ∈ lang, isLangChar x = true) (hhl : goodHl hl)
    (hbody : goodBody c n body) (htail : tail = [] ∨ ∃ r, tail = '\n' :: r) :
    ∃ md, search (fencedBlock c n lang hl body ++ tail) = some (0, md) ∧
      md.lang = lang ∧
      (step cfg tab st (fencedBlock c n lang hl body ++ tail) (0, md)).1 =
        st ++ [⟨some (bodyText body), some lang, cfg, tab⟩] :=
  ⟨_, search_fencedBlock c n lang hl body tail hc hn hlang hhl hbody htail,
    rfl, rfl⟩

/-- C6 witness: a python-tagged block invokes highlighting with language
python; the second instance of the theorem at lang = [] gives the
empty-string case. -/
theorem c6_witness :
    ∃ md, search (fencedBlock btick 3 ['p', 'y', 't', 'h', 'o', 'n'] none
        [['p', 'r', 'i', 'n', 't', '(', '1', ')']] ++ []) = some (0, md) ∧
      md.lang = ['p', 'y', 't', 'h', 'o', 'n'] ∧
      (step ⟨true, true, "c", "s", false, true⟩ 4 []
          (fencedBlock btick 3 ['p', 'y', 't', 'h', 'o', 'n'] none
            [['p', 'r', 'i', 'n', 't', '(', '1', ')']] ++ []) (0, md)).1 =
        [] ++ [⟨some (bodyText [['p', 'r', 'i', 'n', 't', '(', '1', ')']]),
          some ['p', 'y', 't', 'h', 'o', 'n'], ⟨true, true, "c", "s", false, true⟩, 4⟩] :=
  c6_lang ⟨true, true, "c", "s", false, true⟩ 4 [] btick 3
    ['p', 'y', 't', 'h', 'o', 'n'] none [['p', 'r', 'i', 'n', 't', '(', '1', ')']]
    [] (Or.inl rfl) (by decide) (by decide) (by decide) (by decide) (Or.inl rfl)

/-! ## Decomposition of an arbitrary successful match

These lemmas recover, from any successful search, the structure the loop
measure argument needs: the match starts at a line start with a run of
three-plus fence characters, and the text resumes at a line boundary
(or the end) after the match. -/

theorem countWhile_le_length (p : Char → Bool) (t : List Char) :
    countWhile p t ≤ t.length := by
  induction t with
  | nil => simp [countWhile]
  | cons x xs ih =>
    by_cases h : p x = true <;> simp [countWhile, h] <;> omega

theorem countRun_take_replicate (c : Char) (t : List Char) :
    t = List.replicate (countRun c t) c ++ t.drop (countRun c t) := by
  induction t with
  | nil => rfl
  | cons x xs ih =>
    by_cases h : (x == c) = true
    · have hx : x = c := by simpa using h
      subst hx
      have hc1 : countRun x (x :: xs) = countRun x xs + 1 := by
        simp [countRun, countWhile]
      rw [hc1, List.replicate_succ, List.cons_append, List.drop_succ_cons]
      exact congrArg (List.cons x) ih
    · have : countRun c (x :: xs) = 0 := countRun_head_ne c x xs (by simpa using h)
      rw [this]
      rfl

theorem drop_add (l : List Char) (m n : Nat) :
    (l.drop m).drop n = l.drop (m + n) := by
  rw [List.drop_drop]

theorem nlHead_drop_decomp (t : List Char) (S : Nat)
    (h : nlHead (t.drop S) = true) :
    ∃ a rest, t = a ++ '\n' :: rest ∧ a.length = S := by
  obtain ⟨rest, hrest⟩ : ∃ rest, t.drop S = '\n' :: rest := by
    cases hd : t.drop S with
    | nil => rw [hd] at h; simp [nlHead] at h
    | cons y ys =>
      rw [hd] at h
      have hy : y = '\n' := by simpa [nlHead] using h
      exact ⟨ys, by rw [hy]⟩
  have hSlt : S < t.length := by
    by_contra hle
    push_neg at hle
    rw [List.drop_eq_nil_of_le hle] at hrest
    exact absurd hrest (by simp)
  refine ⟨t.take S, rest, ?_, ?_⟩
  · conv_lhs => rw [← List.take_append_drop S t]
    rw [hrest]
  · rw [List.length_take]
    omega

theorem mem_concatMap {α β : Type} (f : α → List β) (l : List α) (x : β) :
    x ∈ concatMap f l ↔ ∃ a ∈ l, x ∈ f a := by
  induction l with
  | nil => simp [concatMap]
  | cons a as ih => simp [concatMap, ih]

theorem mem_revRange (k n : Nat) (h : k ∈ revRange n) : k < n := by
  induction n with
  | zero => simp [revRange] at h
  | succ m ih =>
    rw [revRange] at h
    rcases List.mem_cons.mp h with rfl | h2
    · omega
    · exact Nat.lt_succ_of_lt (ih h2)

theorem firstSome_mem {α β : Type} (l : List α) (f : α → Option β) (b : β)
    (h : firstSome l f = some b) : ∃ a ∈ l, f a = some b := by
  induction l with
  | nil => simp [firstSome] at h
  | cons x xs ih =>
    rw [firstSome] at h
    cases hx : f x with
    | some r =>
      rw [hx] at h
      exact ⟨x, by simp, by simpa [hx] using h⟩
    | none =>
      rw [hx] at h
      obtain ⟨a, ha, hfa⟩ := ih h
      exact ⟨a, by simp [ha], hfa⟩

theorem takeWhileL_decomp (p : Char → Bool) (t : List Char) :
    t = takeWhileL p t ++ t.drop (takeWhileL p t).length := by
  induction t with
  | nil => rfl
  | cons x xs ih =>
    by_cases h : p x = true
    · rw [takeWhileL, if_pos h]
      simpa using ih
    · rw [takeWhileL, if_neg (by simp [h])]
      rfl

theorem headerTail_decomp (t : List Char) (k : Nat) (h : headerTail t = some k) :
    ∃ a rest, t = a ++ '\n' :: rest ∧ k = a.length + 1 := by
  simp only [headerTail] at h
  split at h
  case isTrue hnl =>
    have hk := Option.some.inj h
    rw [drop_add, drop_add] at hnl
    obtain ⟨a, rest, hteq, hlen⟩ := nlHead_drop_decomp t _ hnl
    exact ⟨a, rest, hteq, by omega⟩
  case isFalse => exact absurd h (by simp)

theorem braceFlag_le (t : List Char) : braceFlag t ≤ t.length := by
  cases t with
  | nil => simp [braceFlag]
  | cons x xs => by_cases h : (x == '\x7b') = true <;> simp [braceFlag, h]

theorem dotFlag_le (t : List Char) : dotFlag t ≤ t.length := by
  cases t with
  | nil => simp [dotFlag]
  | cons x xs => by_cases h : (x == '.') = true <;> simp [dotFlag, h]

theorem drop_append_cons (a : List Char) (y : Char) (rest : List Char) :
    (a ++ y :: rest).drop (a.length + 1) = rest := by
  have h := List.drop_left (a ++ [y]) rest
  simp only [List.append_assoc, List.singleton_append, List.length_append,
    List.length_singleton] at h
  exact h

theorem hlCandidates_decomp (q : Char) (t v : List Char) (k : Nat)
    (h : (v, k) ∈ hlCandidates q t) :
    ∃ a rest, t = a ++ '\n' :: rest ∧ k = a.length + 1 := by
  induction t generalizing v k with
  | nil => simp [hlCandidates] at h
  | cons x xs ih =>
    rw [hlCandidates] at h
    have hmap : (v, k) ∈ (hlCandidates q xs).map (fun vc => (x :: vc.1, vc.2 + 1)) →
        ∃ a rest, x :: xs = a ++ '\n' :: rest ∧ k = a.length + 1 := by
      intro hm
      obtain ⟨⟨v0, k0⟩, hmem, heq⟩ := List.mem_map.mp hm
      obtain ⟨a0, rest, hxs, hk0⟩ := ih v0 k0 hmem
      refine ⟨x :: a0, rest, ?_, ?_⟩
      · rw [hxs]; rfl
      · have hk : k = k0 + 1 := by
          have := congrArg Prod.snd heq
          simpa using this.symm
        simp [hk, hk0]
    by_cases hx : (x == q) = true
    · rw [if_pos hx] at h
      cases hht : headerTail xs with
      | some k0 =>
        rw [hht] at h
        rcases List.mem_cons.mp h with heq | hmem
        · obtain ⟨a0, rest, hxs, hk0⟩ := headerTail_decomp xs k0 hht
          have hveq : v = [] ∧ k = k0 + 1 := by
            have h1 := congrArg Prod.fst heq
            have h2 := congrArg Prod.snd heq
            simp at h1 h2
            exact ⟨h1, h2⟩
          refine ⟨x :: a0, rest, ?_, ?_⟩
          · rw [hxs]; rfl
          · simp [hveq.2, hk0]
        · exact hmap hmem
      | none =>
        rw [hht] at h
        exact hmap h
    · rw [if_neg (by simpa using hx)] at h
      exact hmap h

theorem afterLangCands_decomp (t : List Char) (hl : Option (List Char)) (k : Nat)
    (h : (hl, k) ∈ afterLangCands t) :
    ∃ a rest, t = a ++ '\n' :: rest ∧ k = a.length + 1 := by
  rw [afterLangCands] at h
  have hs_le : countRun ' ' t ≤ t.length := countWhile_le_length _ t
  rcases List.mem_append.mp h with h1 | h2
  · cases hdl : dropLit hlLit (t.drop (countRun ' ' t)) with
    | none => rw [hdl] at h1; simp at h1
    | some r =>
      cases r with
      | nil => rw [hdl] at h1; simp at h1
      | cons q t2 =>
        rw [hdl] at h1
        by_cases hq : (q == '"' || q == '\'') = true
        · have h1' : (hl, k) ∈ List.map
              (fun vc => (some vc.1, countRun ' ' t + hlLit.length + 1 + vc.2))
              (hlCandidates q t2) := by
            simpa [hq] using h1
          obtain ⟨⟨v0, k0⟩, hmem, heq⟩ := List.mem_map.mp h1'
          obtain ⟨a0, rest, ht2, hk0⟩ := hlCandidates_decomp q t2 v0 k0 hmem
          have hdrop := dropLit_some _ _ _ hdl
          have hk : k = countRun ' ' t + hlLit.length + 1 + k0 := by
            have := congrArg Prod.snd heq
            simpa using this.symm
          refine ⟨t.take (countRun ' ' t) ++ (hlLit ++ q :: a0), rest, ?_, ?_⟩
          · conv_lhs => rw [← List.take_append_drop (countRun ' ' t) t]
            rw [hdrop, ht2]
            simp [List.append_assoc]
          · simp [hk, hk0, List.length_take, hlLit]
            omega
        · simp [hq] at h1
  · cases hht : headerTail (t.drop (countRun ' ' t)) with
    | none => rw [hht] at h2; simp at h2
    | some k0 =>
      rw [hht] at h2
      have hk : hl = none ∧ k = countRun ' ' t + k0 := by
        simpa using h2
      obtain ⟨a0, rest, ht1, hk0⟩ := headerTail_decomp _ k0 hht
      refine ⟨t.take (countRun ' ' t) ++ a0, rest, ?_, ?_⟩
      · conv_lhs => rw [← List.take_append_drop (countRun ' ' t) t]
        rw [ht1]
        simp [List.append_assoc]
      · simp [hk.2, hk0, List.length_take]
        omega

theorem headerCands_decomp (t0 lang : List Char) (hl : Option (List Char)) (k : Nat)
    (h : (lang, hl, k) ∈ headerCands t0) :
    ∃ a rest, t0 = a ++ '\n' :: rest ∧ k = a.length + 1 := by
  rw [headerCands] at h
  obtain ⟨kk, hkkmem, hmm⟩ := (mem_concatMap _ _ _).mp h
  obtain ⟨⟨hl0, alen⟩, hmem, heq⟩ := List.mem_map.mp hmm
  have hkk : kk ≤ (takeWhileL isLangChar
      (((t0.drop (countRun ' ' t0)).drop (braceFlag (t0.drop (countRun ' ' t0)))).drop
        (dotFlag ((t0.drop (countRun ' ' t0)).drop
          (braceFlag (t0.drop (countRun ' ' t0))))))).length := by
    have := mem_revRange _ _ hkkmem
    omega
  obtain ⟨a0, rest, harg, halen⟩ := afterLangCands_decomp _ hl0 alen hmem
  have hk : k = countRun ' ' t0 + braceFlag (t0.drop (countRun ' ' t0)) +
      dotFlag ((t0.drop (countRun ' ' t0)).drop (braceFlag (t0.drop (countRun ' ' t0)))) +
      kk + alen := by
    have := congrArg (fun p => p.2.2) heq
    simpa using this.symm
  set s0 := countRun ' ' t0 with hs0def
  set t1 := t0.drop s0 with ht1def
  set b := braceFlag t1 with hbdef
  set t2 := t1.drop b with ht2def
  set d := dotFlag t2 with hddef
  set t3 := t2.drop d with ht3def
  set lrun := takeWhileL isLangChar t3 with hlrundef
  have ht3 : t3 = lrun ++ t3.drop lrun.length := takeWhileL_decomp isLangChar t3
  have hlsplit : lrun = lrun.take kk ++ lrun.drop kk := (List.take_append_drop kk lrun).symm
  have hs0le : s0 ≤ t0.length := countWhile_le_length _ t0
  have hble : b ≤ t1.length := braceFlag_le t1
  have hdle : d ≤ t2.length := dotFlag_le t2
  have hmid : lrun ++ List.drop lrun.length t3 =
      List.take kk lrun ++ (a0 ++ '\n' :: rest) := by
    have hstep : lrun ++ List.drop lrun.length t3 =
        (List.take kk lrun ++ List.drop kk lrun) ++ List.drop lrun.length t3 := by
      rw [← hlsplit]
    rw [hstep, List.append_assoc, harg]
  refine ⟨t0.take s0 ++ (t1.take b ++ (t2.take d ++ (lrun.take kk ++ a0))), rest, ?_, ?_⟩
  · conv_lhs => rw [← List.take_append_drop s0 t0, ← ht1def,
      ← List.take_append_drop b t1, ← ht2def,
      ← List.take_append_drop d t2, ← ht3def]
    rw [ht3, hmid]
    simp [List.append_assoc]
  · have hlkk : (lrun.take kk).length = kk := by
      rw [List.length_take]
      omega
    simp only [List.length_append, List.length_take, hlkk]
    have h1 : min s0 t0.length = s0 := by omega
    have h2 : min b t1.length = b := by omega
    have h3 : min d t2.length = d := by omega
    rw [h1, h2, h3]
    omega

theorem closeAt_decomp (fence u : List Char) (k : Nat) (h : closeAt fence u = some k) :
    ∃ sp rest, u = fence ++ (sp ++ rest) ∧ (∀ x ∈ sp, x = ' ') ∧
      k = fence.length + sp.length ∧ (rest = [] ∨ ∃ r', rest = '\n' :: r') := by
  cases hdl : dropLit fence u with
  | none => rw [closeAt, hdl] at h; exact absurd h (by simp)
  | some r =>
    rw [closeAt, hdl] at h
    replace h : (if dollarAt (r.drop (countRun ' ' r))
        then some (fence.length + countRun ' ' r) else none) = some k := h
    split at h
    case isTrue hdol =>
      have hk := Option.some.inj h
      have hdr := countRun_take_replicate ' ' r
      refine ⟨List.replicate (countRun ' ' r) ' ', r.drop (countRun ' ' r), ?_, ?_, ?_, ?_⟩
      · exact (dropLit_some _ _ _ hdl).trans (congrArg (fence ++ ·) hdr)
      · intro x hx
        exact List.eq_of_mem_replicate hx
      · rw [← hk]
        simp
      · cases hrest : r.drop (countRun ' ' r) with
        | nil => exact Or.inl rfl
        | cons y ys =>
          rw [hrest] at hdol
          have : y = '\n' := by simpa [dollarAt] using hdol
          exact Or.inr ⟨ys, by rw [this]⟩
    case isFalse => exact absurd h (by simp)

theorem closeSearchAux_decomp (fence : List Char) :
    ∀ (t : List Char) (ls : Bool) (code : List Char) (k : Nat),
      closeSearchAux fence t ls = some (code, k) →
      ∃ u, t = code ++ u ∧ closeAt fence u = some k := by
  intro t
  induction t with
  | nil =>
    intro ls code k h
    rw [closeSearchAux] at h
    cases ls with
    | false => simp at h
    | true =>
      cases hca : closeAt fence [] with
      | none => rw [hca] at h; simp at h
      | some k0 =>
        rw [hca] at h
        simp at h
        exact ⟨[], by simp [h.1], by rw [hca, h.2]⟩
  | cons x xs ih =>
    intro ls code k h
    rw [closeSearchAux] at h
    by_cases hif : (if ls then closeAt fence (x :: xs) else none) = none
    · rw [hif] at h
      cases hrec : closeSearchAux fence xs (x == '\n') with
      | none => rw [hrec] at h; simp at h
      | some p =>
        rw [hrec] at h
        obtain ⟨code0, k0⟩ := p
        have hc : code = x :: code0 ∧ k = k0 := by
          simpa using h.symm
        obtain ⟨u, hxs, hclose⟩ := ih (x == '\n') code0 k0 hrec
        exact ⟨u, by rw [hc.1, hxs]; rfl, by rw [hclose, hc.2]⟩
    · cases hca : (if ls then closeAt fence (x :: xs) else none) with
      | none => exact absurd hca hif
      | some k0 =>
        rw [hca] at h
        have hc : code = [] ∧ k = k0 := by simpa using h.symm
        have hclose : closeAt fence (x :: xs) = some k0 := by
          cases ls with
          | false => simp at hca
          | true => simpa using hca
        exact ⟨x :: xs, by rw [hc.1]; rfl, by rw [hclose, hc.2]⟩

set_option maxHeartbeats 1000000 in
theorem matchAt_decomp (t : List Char) (md : MatchData) (h : matchAt t = some md) :
    (∃ c, (c = btick ∨ c = '~') ∧ List.replicate 3 c <+: t) ∧ 3 ≤ md.len ∧
      md.len ≤ t.length ∧ (t.drop md.len = [] ∨ ∃ r, t.drop md.len = '\n' :: r) := by
  cases t with
  | nil => simp [matchAt] at h
  | cons x xs =>
    rw [matchAt] at h
    by_cases hfc : isFenceChar x = true
    case neg => simp [hfc] at h
    rw [if_pos hfc] at h
    by_cases h3 : 3 ≤ countRun x (x :: xs)
    case neg => rw [if_neg h3] at h; simp at h
    rw [if_pos h3] at h
    obtain ⟨cand, hcmem, hfs⟩ := firstSome_mem _ _ _ h
    obtain ⟨lang0, hl0, hlen0⟩ := cand
    cases hcs : closeSearchAux (List.replicate (countRun x (x :: xs)) x)
        (((x :: xs).drop (countRun x (x :: xs))).drop hlen0) true with
    | none => rw [hcs] at hfs; simp at hfs
    | some p =>
      obtain ⟨code, clen⟩ := p
      rw [hcs] at hfs
      have hmd : md = ⟨List.replicate (countRun x (x :: xs)) x, lang0, hl0, code,
          countRun x (x :: xs) + hlen0 + code.length + clen⟩ := by
        simpa using hfs.symm
      obtain ⟨a, rest0, ht0, hlena⟩ :=
        headerCands_decomp ((x :: xs).drop (countRun x (x :: xs))) lang0 hl0 hlen0 hcmem
      have hdrop0 : ((x :: xs).drop (countRun x (x :: xs))).drop hlen0 = rest0 := by
        rw [ht0, hlena]
        exact drop_append_cons a '\n' rest0
      rw [hdrop0] at hcs
      obtain ⟨u, hrest0, hclose⟩ := closeSearchAux_decomp _ rest0 true code clen hcs
      obtain ⟨sp, rest2, hu, hsp, hclen, hrest2⟩ := closeAt_decomp _ u clen hclose
      have ht : x :: xs = List.replicate (countRun x (x :: xs)) x ++
          ((x :: xs).drop (countRun x (x :: xs))) := countRun_take_replicate x (x :: xs)
      have hx2 : x = btick ∨ x = '~' := by
        have := hfc
        simp [isFenceChar] at this
        exact this
      have hfull : x :: xs =
          (List.replicate (countRun x (x :: xs)) x ++
            (a ++ '\n' :: (code ++ (List.replicate (countRun x (x :: xs)) x ++ sp)))) ++
            rest2 := by
        conv_lhs => rw [ht, ht0, hrest0, hu]
        simp [List.append_assoc]
      simp only [List.length_replicate] at hclen
      have hdlen : md.len = countRun x (x :: xs) + hlen0 + code.length + clen := by
        rw [hmd]
      have hPRElen : (List.replicate (countRun x (x :: xs)) x ++
          (a ++ '\n' :: (code ++ (List.replicate (countRun x (x :: xs)) x ++ sp)))).length =
          md.len := by
        rw [hdlen]
        simp only [List.length_append, List.length_cons, List.length_replicate]
        omega
      refine ⟨⟨x, hx2, ?_⟩, ?_, ?_, ?_⟩
      · have hsplit : List.replicate (countRun x (x :: xs)) x =
            List.replicate 3 x ++ List.replicate (countRun x (x :: xs) - 3) x := by
          rw [← List.replicate_add, Nat.add_sub_cancel' h3]
        exact ⟨List.replicate (countRun x (x :: xs) - 3) x ++
          ((x :: xs).drop (countRun x (x :: xs))), by
            conv_rhs => rw [ht, hsplit]
            rw [List.append_assoc]⟩
      · omega
      · have hlen2 := congrArg List.length hfull
        simp only [List.length_append] at hlen2
        rw [← hPRElen]
        simp only [List.length_append]
        omega
      · have hdropfin : (x :: xs).drop md.len = rest2 := by
          rw [hfull, ← hPRElen]
          exact List.drop_left _ _
        rw [hdropfin]
        exact hrest2

theorem searchAux_decomp :
    ∀ (t : List Char) (ls : Bool) (i : Nat) (md : MatchData),
      searchAux t ls = some (i, md) →
      ∃ pre rest, t = pre ++ rest ∧ pre.length = i ∧ matchAt rest = some md ∧
        ((pre = [] ∧ ls = true) ∨ ∃ p', pre = p' ++ ['\n']) := by
  intro t
  induction t with
  | nil => intro ls i md h; simp [searchAux] at h
  | cons x xs ih =>
    intro ls i md h
    rw [searchAux] at h
    cases hm : (if ls then matchAt (x :: xs) else none) with
    | some md0 =>
      rw [hm] at h
      have h2 : (some (0, md0) : Option (Nat × MatchData)) = some (i, md) := h
      have h3 := Option.some.inj h2
      have hi : i = 0 := (congrArg Prod.fst h3).symm
      have hmd : md = md0 := (congrArg Prod.snd h3).symm
      have hls : ls = true := by
        cases ls with
        | false => simp at hm
        | true => rfl
      have hmt : matchAt (x :: xs) = some md0 := by
        rw [hls] at hm
        simpa using hm
      exact ⟨[], x :: xs, rfl, by simp [hi], by rw [hmt, hmd], Or.inl ⟨rfl, hls⟩⟩
    | none =>
      rw [hm] at h
      cases hrec : searchAux xs (x == '\n') with
      | none => rw [hrec] at h; simp at h
      | some p =>
        rw [hrec] at h
        obtain ⟨i0, md0⟩ := p
        have h2 : (some (i0 + 1, md0) : Option (Nat × MatchData)) = some (i, md) := h
        have h3 := Option.some.inj h2
        have hi : i = i0 + 1 := (congrArg Prod.fst h3).symm
        have hmd : md = md0 := (congrArg Prod.snd h3).symm
        obtain ⟨pre0, rest, hxs, hlen, hmt, hcond⟩ := ih (x == '\n') i0 md0 hrec
        refine ⟨x :: pre0, rest, by rw [hxs]; rfl, by simp [hlen, hi],
          by rw [hmt, hmd], ?_⟩
        rcases hcond with ⟨hpre0, hflag⟩ | ⟨p', hp'⟩
        · have hx : x = '\n' := by simpa using hflag
          exact Or.inr ⟨[], by rw [hpre0, hx]; rfl⟩
        · exact Or.inr ⟨x :: p', by rw [hp']; rfl⟩

/-! ## Counting fence starts: the loop measure -/

theorem countRun_append_stopped (c : Char) (v : List Char) :
    ∀ u : List Char, (∃ y ∈ u, y ≠ c) → countRun c (u ++ v) = countRun c u := by
  intro u
  induction u with
  | nil => intro h; obtain ⟨y, hy, _⟩ := h; simp at hy
  | cons x u' ih =>
    intro h
    by_cases hx : (x == c) = true
    · have hxc : x = c := by simpa using hx
      have h' : ∃ y ∈ u', y ≠ c := by
        obtain ⟨y, hy, hyne⟩ := h
        rcases List.mem_cons.mp hy with hy0 | hy'
        · exact absurd (hy0.trans hxc) hyne
        · exact ⟨y, hy', hyne⟩
      have hrec := ih h'
      simp only [countRun] at hrec ⊢
      simp only [List.cons_append, countWhile, hx, if_true, List.append_eq, hrec]
    · have hx' : (x == c) = false := by
        cases h0 : (x == c)
        · rfl
        · exact absurd h0 hx
      simp only [countRun, List.cons_append]
      exact (countWhile_head_false _ x (u' ++ v) hx').trans
        (countWhile_head_false _ x u' hx').symm

theorem matchAt_none_head (y : Char) (ys : List Char) (h : isFenceChar y = false) :
    matchAt (y :: ys) = none := by
  rw [matchAt]
  simp [h]

theorem fenceStarts_cons_nl (b : List Char) (ls : Bool) :
    fenceStarts ('\n' :: b) ls = fenceStarts b true := by
  rw [fenceStarts]
  have hnl : isFenceChar '\n' = false := by decide
  simp [hnl]

theorem fenceStarts_all_nofence :
    ∀ (t : List Char) (ls : Bool), (∀ x ∈ t, isFenceChar x = false) →
      fenceStarts t ls = 0 := by
  intro t
  induction t with
  | nil => intro ls _; rfl
  | cons x xs ih =>
    intro ls h
    rw [fenceStarts]
    have hx : isFenceChar x = false := h x (by simp)
    rw [ih (x == '\n') (fun y hy => h y (by simp [hy]))]
    simp [hx]

theorem fenceStarts_append_nl :
    ∀ (a b : List Char) (ls : Bool),
      fenceStarts (a ++ '\n' :: b) ls = fenceStarts (a ++ ['\n']) ls + fenceStarts b true := by
  intro a
  induction a with
  | nil =>
    intro b ls
    simp only [List.nil_append]
    rw [fenceStarts_cons_nl]
    rw [fenceStarts_all_nofence ['\n'] ls (by intro x hx; simp at hx; rw [hx]; decide)]
    omega
  | cons y a' ih =>
    intro b ls
    simp only [List.cons_append]
    rw [fenceStarts, fenceStarts]
    by_cases hy : isFenceChar y = true
    · have hyne : ('\n' : Char) ≠ y := by
        have := hy
        simp [isFenceChar] at this
        rcases this with h1 | h1 <;> rw [h1] <;> decide
      have hcr : countRun y (y :: (a' ++ '\n' :: b)) = countRun y (y :: (a' ++ ['\n'])) := by
        have hform : y :: (a' ++ '\n' :: b) = (y :: (a' ++ ['\n'])) ++ b := by
          simp
        rw [hform]
        exact countRun_append_stopped y b (y :: (a' ++ ['\n']))
          ⟨'\n', by simp, hyne⟩
      rw [hcr, ih b (y == '\n')]
      omega
    · have hy' : isFenceChar y = false := by
        cases hiso : isFenceChar y
        · rfl
        · exact absurd hiso hy
      simp only [hy', Bool.false_and, Bool.and_false, if_false]
      rw [ih b (y == '\n')]
      omega

theorem digitChar_clean (d : Nat) (hd : d < 10) :
    isFenceChar (digitChar d) = false ∧ digitChar d ≠ '\n' := by
  interval_cases d <;> exact ⟨by decide, by decide⟩

theorem natDigits_clean (n : Nat) :
    ∀ x ∈ natDigits n, isFenceChar x = false ∧ x ≠ '\n' := by
  induction n using Nat.strong_induction_on with
  | _ n ih =>
    intro x hx
    rw [natDigits] at hx
    by_cases h : n < 10
    · rw [dif_pos h] at hx
      simp at hx
      rw [hx]
      exact digitChar_clean n h
    · rw [dif_neg h] at hx
      simp at hx
      rcases hx with hx1 | hx2
      · exact ih (n / 10) (Nat.div_lt_self (by omega) (by omega)) x hx1
      · rw [hx2]
        exact digitChar_clean (n % 10) (Nat.mod_lt n (by omega))

theorem placeholder_clean (i : Nat) :
    ∀ x ∈ placeholder i, isFenceChar x = false ∧ x ≠ '\n' := by
  intro x hx
  rw [placeholder] at hx
  rcases List.mem_cons.mp hx with h | hx2
  · rw [h]; exact ⟨by decide, by decide⟩
  · rcases List.mem_append.mp hx2 with hx3 | hx4
    · rcases List.mem_append.mp hx3 with hx5 | hx6
      · simp at hx5
        rcases hx5 with h | h | h | h | h | h | h | h <;> rw [h] <;>
          exact ⟨by decide, by decide⟩
      · exact natDigits_clean i x hx6
    · simp at hx4
      rw [hx4]
      exact ⟨by decide, by decide⟩

theorem fenceStarts_placeholder_nl (i : Nat) (ls : Bool) :
    fenceStarts (placeholder i ++ ['\n']) ls = 0 := by
  apply fenceStarts_all_nofence
  intro x hx
  rcases List.mem_append.mp hx with h | h
  · exact (placeholder_clean i x h).1
  · simp at h
    rw [h]
    decide

theorem fenceStarts_triple (c : Char) (hc : isFenceChar c = true) (w : List Char) :
    1 ≤ fenceStarts (c :: c :: c :: w) true := by
  have hcr : 3 ≤ countRun c (c :: c :: c :: w) := by
    have : c :: c :: c :: w = List.replicate 3 c ++ w := by simp [List.replicate]
    rw [this, countRun_replicate_append]
    omega
  rw [fenceStarts]
  have hcond : (true && (isFenceChar c &&
      decide (3 ≤ countRun c (c :: c :: c :: w)))) = true := by
    rw [hc, decide_eq_true hcr]
    rfl
  rw [hcond]
  simp

theorem matchAt_fenceStarts_lt (R : List Char) (md : MatchData)
    (h : matchAt R = some md) :
    fenceStarts (R.drop md.len) true < fenceStarts R true := by
  obtain ⟨⟨c, hc, w', hw⟩, h3len, hlenle, hsuf⟩ := matchAt_decomp R md h
  have hfcc : isFenceChar c = true := by rcases hc with rfl | rfl <;> rfl
  have hR : R = c :: c :: c :: w' := by
    rw [← hw]
    simp [List.replicate]
  rcases hsuf with hnil | ⟨r, hr⟩
  · rw [hnil]
    have h1 := fenceStarts_triple c hfcc w'
    have h2 : fenceStarts ([] : List Char) true = 0 := rfl
    rw [h2, hR]
    omega
  · have hsplit : R = R.take md.len ++ '\n' :: r := by
      conv_lhs => rw [← List.take_append_drop md.len R]
      rw [hr]
    have hA : R.take md.len = c :: c :: c :: (w'.take (md.len - 3)) := by
      rw [hR]
      have h1 : c :: c :: c :: w' = List.replicate 3 c ++ w' := by simp [List.replicate]
      rw [h1, List.take_append_eq_append_take]
      rw [List.take_of_length_le (by simp; omega)]
      simp [List.replicate]
    rw [hr, fenceStarts_cons_nl]
    conv_rhs => rw [hsplit]
    rw [fenceStarts_append_nl]
    have hge : 1 ≤ fenceStarts (R.take md.len ++ ['\n']) true := by
      rw [hA]
      exact fenceStarts_triple c hfcc (w'.take (md.len - 3) ++ ['\n'])
    omega

theorem step_decreases (cfg : CHConfig) (tab : Nat) (st : List HighlightCall)
    (text : List Char) (m : Nat × MatchData) (h : search text = some m) :
    fenceStarts (step cfg tab st text m).2 true < fenceStarts text true := by
  obtain ⟨i, md⟩ := m
  rw [search] at h
  obtain ⟨pre, rest, htx, hplen, hmt, hcond⟩ := searchAux_decomp text true i md h
  have htake : text.take i = pre := by
    rw [htx, ← hplen]
    exact List.take_left pre rest
  have hdrop : text.drop (i + md.len) = rest.drop md.len := by
    rw [htx, ← hplen]
    rw [show pre.length + md.len = pre.length + md.len from rfl]
    rw [List.drop_append]
  have hnew : (step cfg tab st text (i, md)).2 =
      pre ++ '\n' :: (placeholder st.length ++ '\n' :: rest.drop md.len) := by
    rw [step]
    simp only [htake, hdrop]
  have hcore := matchAt_fenceStarts_lt rest md hmt
  rw [hnew]
  rcases hcond with ⟨hP, _⟩ | ⟨p', hP⟩
  · rw [hP, htx, hP]
    simp only [List.nil_append]
    rw [fenceStarts_cons_nl, fenceStarts_append_nl, fenceStarts_placeholder_nl]
    omega
  · have hform1 : pre ++ '\n' :: (placeholder st.length ++ '\n' :: rest.drop md.len) =
        p' ++ '\n' :: ('\n' :: (placeholder st.length ++ '\n' :: rest.drop md.len)) := by
      rw [hP]
      simp
    have hform2 : text = p' ++ '\n' :: rest := by
      rw [htx, hP]
      simp
    rw [hform1, hform2]
    rw [fenceStarts_append_nl p'
      ('\n' :: (placeholder st.length ++ '\n' :: rest.drop md.len)) true]
    rw [fenceStarts_append_nl p' rest true]
    rw [fenceStarts_cons_nl (placeholder st.length ++ '\n' :: rest.drop md.len) true]
    rw [fenceStarts_append_nl (placeholder st.length) (rest.drop md.len) true]
    rw [fenceStarts_placeholder_nl st.length true]
    omega

theorem runLoop_fuel_inv (cfg : CHConfig) (tab : Nat) :
    ∀ (f1 : Nat), ∀ (f2 : Nat) (st : List HighlightCall) (text : List Char),
      fenceStarts text true < f1 → fenceStarts text true < f2 →
      runLoop cfg tab f1 st text = runLoop cfg tab f2 st text := by
  intro f1
  induction f1 with
  | zero => intro f2 st text h1 _; omega
  | succ n ih =>
    intro f2 st text h1 h2
    cases f2 with
    | zero => omega
    | succ m =>
      rw [runLoop, runLoop]
      cases hs : search text with
      | none => rfl
      | some m0 =>
        have hdec := step_decreases cfg tab st text m0 hs
        exact ih m (step cfg tab st text m0).1 (step cfg tab st text m0).2
          (by omega) (by omega)

theorem runLoop_reaches_fixpoint (cfg : CHConfig) (tab : Nat) :
    ∀ (fuel : Nat) (st : List HighlightCall) (text : List Char),
      fenceStarts text true < fuel →
      search (runLoop cfg tab fuel st text).2 = none := by
  intro fuel
  induction fuel with
  | zero => intro st text h; omega
  | succ n ih =>
    intro st text h
    rw [runLoop]
    cases hs : search text with
    | none => exact hs
    | some m =>
      have hdec := step_decreases cfg tab st text m hs
      exact ih (step cfg tab st text m).1 (step cfg tab st text m).2 (by omega)

/-! ## Claim C9 -/

/-- C9: the match-and-replace loop of run terminates: every iteration on a
text with a match strictly decreases the number of line-initial runs of
three or more identical fence characters (the measure fenceStarts), and
with the fuel run supplies the loop reaches the no-match fixpoint at which
the Python while-loop breaks. -/
theorem c9_decrease (cfg : CHConfig) (tab : Nat) (st : List HighlightCall)
    (text : List Char) :
    (∀ m, search text = some m →
      fenceStarts (step cfg tab st text m).2 true < fenceStarts text true) ∧
    search (runLoop cfg tab (fenceStarts text true + 1) st text).2 = none :=
  ⟨fun m hm => step_decreases cfg tab st text m hm,
   runLoop_reaches_fixpoint cfg tab (fenceStarts text true + 1) st text (by omega)⟩

/-- C9 witness: on the concrete text of a three-backtick block with body
"a", the step at its match strictly shrinks the measure and the fueled
loop ends at a matchless text. -/
theorem c9_witness :
    (fenceStarts (step ⟨true, true, "c", "s", false, true⟩ 4 []
        ['\x60', '\x60', '\x60', '\n', 'a', '\n', '\x60', '\x60', '\x60']
        (0, ⟨['\x60', '\x60', '\x60'], [], none, ['a', '\n'], 9⟩)).2 true <
      fenceStarts ['\x60', '\x60', '\x60', '\n', 'a', '\n', '\x60', '\x60', '\x60'] true) ∧
    search (runLoop ⟨true, true, "c", "s", false, true⟩ 4
        (fenceStarts ['\x60', '\x60', '\x60', '\n', 'a', '\n', '\x60', '\x60', '\x60'] true + 1)
        [] ['\x60', '\x60', '\x60', '\n', 'a', '\n', '\x60', '\x60', '\x60']).2 = none :=
  ⟨(c9_decrease ⟨true, true, "c", "s", false, true⟩ 4 []
      ['\x60', '\x60', '\x60', '\n', 'a', '\n', '\x60', '\x60', '\x60']).1
      (0, ⟨['\x60', '\x60', '\x60'], [], none, ['a', '\n'], 9⟩) (by decide),
   (c9_decrease ⟨true, true, "c", "s", false, true⟩ 4 []
      ['\x60', '\x60', '\x60', '\n', 'a', '\n', '\x60', '\x60', '\x60']).2⟩

/-! ## Locating a match behind a fence-free prefix, and the full run -/

theorem joinLines_splitNl : ∀ t : List Char, joinLines (splitNl t) = t := by
  intro t
  induction t with
  | nil => rfl
  | cons c cs ih =>
    rw [splitNl]
    obtain ⟨l, ls, hs⟩ : ∃ l ls, splitNl cs = l :: ls := by
      cases h0 : splitNl cs with
      | nil => exact absurd h0 (splitNl_ne_nil cs)
      | cons a b => exact ⟨a, b, rfl⟩
    rw [hs]
    show joinLines (if c == '\n' then [] :: l :: ls else (c :: l) :: ls) = c :: cs
    rw [hs] at ih
    by_cases hc : (c == '\n') = true
    · have hc' : c = '\n' := by simpa using hc
      rw [if_pos hc, hc']
      have h1 : joinLines ([] :: l :: ls) = '\n' :: joinLines (l :: ls) := by
        simp [joinLines]
      rw [h1, ih]
    · rw [if_neg hc]
      cases ls with
      | nil =>
        have h1 : joinLines [c :: l] = c :: l := rfl
        have h2 : joinLines [l] = l := rfl
        rw [h2] at ih
        rw [h1, ih]
      | cons l2 ls2 =>
        have h1 : joinLines ((c :: l) :: l2 :: ls2) =
            (c :: l) ++ '\n' :: joinLines (l2 :: ls2) := by
          simp [joinLines]
        have h2 : joinLines (l :: l2 :: ls2) =
            l ++ '\n' :: joinLines (l2 :: ls2) := by
          simp [joinLines]
        rw [h2] at ih
        rw [h1, ← ih]
        simp

theorem searchAux_none_of_nofence :
    ∀ (t : List Char) (ls : Bool), (∀ x ∈ t, isFenceChar x = false) →
      searchAux t ls = none := by
  intro t
  induction t with
  | nil => intro ls _; rfl
  | cons x xs ih =>
    intro ls h
    rw [searchAux]
    have hm : (if ls then matchAt (x :: xs) else none) = none := by
      cases ls
      · rfl
      · simp [matchAt_none_head x xs (h x (by simp))]
    rw [hm, ih (x == '\n') (fun y hy => h y (by simp [hy]))]
    rfl

theorem searchAux_skip_nl :
    ∀ (pp : List Char), (∀ x ∈ pp, isFenceChar x = false) →
      ∀ (t : List Char) (ls : Bool),
      searchAux (pp ++ '\n' :: t) ls =
        (searchAux t true).map (fun r => (r.1 + (pp.length + 1), r.2)) := by
  intro pp
  induction pp with
  | nil =>
    intro _ t ls
    simp only [List.nil_append]
    rw [searchAux]
    have hm : (if ls then matchAt ('\n' :: t) else none) = none := by
      cases ls
      · rfl
      · simp [matchAt_none_head '\n' t (by decide)]
    rw [hm]
    have hnl : (('\n' : Char) == '\n') = true := by decide
    rw [hnl]
    cases hr : searchAux t true with
    | none => rfl
    | some r => simp
  | cons y pp' ih =>
    intro h t ls
    have hy : isFenceChar y = false := h y (by simp)
    simp only [List.cons_append]
    rw [searchAux]
    have hm : (if ls then matchAt (y :: (pp' ++ '\n' :: t)) else none) = none := by
      cases ls
      · rfl
      · simp [matchAt_none_head y _ hy]
    rw [hm]
    rw [ih (fun x hx => h x (by simp [hx])) t (y == '\n')]
    cases hr : searchAux t true with
    | none => rfl
    | some r =>
      obtain ⟨r1, r2⟩ := r
      simp [Nat.add_assoc]

theorem runLoop_unfold_norm (cfg : CHConfig) (tab : Nat) (st : List HighlightCall)
    (text : List Char) (m : Nat × MatchData) (h : search text = some m) :
    runLoop cfg tab (fenceStarts text true + 1) st text =
      runLoop cfg tab (fenceStarts (step cfg tab st text m).2 true + 1)
        (step cfg tab st text m).1 (step cfg tab st text m).2 := by
  rw [runLoop, h]
  exact runLoop_fuel_inv cfg tab (fenceStarts text true)
    (fenceStarts (step cfg tab st text m).2 true + 1)
    (step cfg tab st text m).1 (step cfg tab st text m).2
    (step_decreases cfg tab st text m h) (by omega)

theorem runLoop_fix_none (cfg : CHConfig) (tab : Nat) (st : List HighlightCall)
    (text : List Char) (h : search text = none) :
    runLoop cfg tab (fenceStarts text true + 1) st text = (st, text) := by
  rw [runLoop, h]

theorem take_prefix_nl (a b : List Char) :
    (a ++ '\n' :: b).take (a.length + 1) = a ++ ['\n'] := by
  have h1 : a ++ '\n' :: b = (a ++ ['\n']) ++ b := by simp
  rw [h1, show a.length + 1 = (a ++ ['\n']).length by simp, List.take_left]

theorem drop_after_nl (a u v : List Char) :
    (a ++ '\n' :: (u ++ v)).drop (a.length + 1 + u.length) = v := by
  have h1 : a ++ '\n' :: (u ++ v) = ((a ++ ['\n']) ++ u) ++ v := by simp
  have h2 : a.length + 1 + u.length = ((a ++ ['\n']) ++ u).length := by simp; omega
  rw [h1, h2, List.drop_left]

/-! ## Claim C2 -/

/-- C2: on an input holding two well-formed fenced blocks behind a
fence-free prefix, the run of the extractor stores exactly one highlighter
call per block, in order, and splices each placeholder at the exact span
of its match: the prefix pp, the separating newline and the text around
each block come through byte-identical, with each block replaced by
newline-placeholder-newline at its exact span. -/
theorem c2_run_frame (cfg : CHConfig) (tab : Nat) (st : List HighlightCall)
    (pp : List Char) (c1 c2 : Char) (n1 n2 : Nat) (lang1 lang2 : List Char)
    (hl1 hl2 : Option (Char × List Char)) (body1 body2 : List (List Char))
    (hpp : ∀ x ∈ pp, isFenceChar x = false)
    (hc1 : c1 = btick ∨ c1 = '~') (hn1 : 3 ≤ n1)
    (hlang1 : ∀ x ∈ lang1, isLangChar x = true) (hhl1 : goodHl hl1)
    (hbody1 : goodBody c1 n1 body1)
    (hc2 : c2 = btick ∨ c2 = '~') (hn2 : 3 ≤ n2)
    (hlang2 : ∀ x ∈ lang2, isLangChar x = true) (hhl2 : goodHl hl2)
    (hbody2 : goodBody c2 n2 body2) :
    run cfg tab st (splitNl (pp ++ '\n' :: (fencedBlock c1 n1 lang1 hl1 body1 ++
        '\n' :: fencedBlock c2 n2 lang2 hl2 body2))) =
      (st ++ [⟨some (bodyText body1), some lang1, cfg, tab⟩,
              ⟨some (bodyText body2), some lang2, cfg, tab⟩],
       splitNl (pp ++ '\n' :: ('\n' :: (placeholder st.length ++ '\n' ::
         ('\n' :: ('\n' :: (placeholder (st.length + 1) ++ ['\n']))))))) := by
  have hsB1 : searchAux (fencedBlock c1 n1 lang1 hl1 body1 ++
      '\n' :: fencedBlock c2 n2 lang2 hl2 body2) true =
      some (0, ⟨List.replicate n1 c1, lang1, Option.map Prod.snd hl1, bodyText body1,
        (fencedBlock c1 n1 lang1 hl1 body1).length⟩) := by
    have h := search_fencedBlock c1 n1 lang1 hl1 body1
      ('\n' :: fencedBlock c2 n2 lang2 hl2 body2)
      hc1 hn1 hlang1 hhl1 hbody1 (Or.inr ⟨_, rfl⟩)
    rw [search] at h
    exact h
  have hs1 : search (pp ++ '\n' :: (fencedBlock c1 n1 lang1 hl1 body1 ++
      '\n' :: fencedBlock c2 n2 lang2 hl2 body2)) =
      some (pp.length + 1,
        ⟨List.replicate n1 c1, lang1, Option.map Prod.snd hl1, bodyText body1,
         (fencedBlock c1 n1 lang1 hl1 body1).length⟩) := by
    rw [search, searchAux_skip_nl pp hpp _ true, hsB1]
    simp
  have hstep1 : step cfg tab st
      (pp ++ '\n' :: (fencedBlock c1 n1 lang1 hl1 body1 ++
        '\n' :: fencedBlock c2 n2 lang2 hl2 body2))
      (pp.length + 1,
        ⟨List.replicate n1 c1, lang1, Option.map Prod.snd hl1, bodyText body1,
         (fencedBlock c1 n1 lang1 hl1 body1).length⟩) =
      (st ++ [⟨some (bodyText body1), some lang1, cfg, tab⟩],
       (pp ++ '\n' :: '\n' :: (placeholder st.length ++ ['\n'])) ++
         '\n' :: fencedBlock c2 n2 lang2 hl2 body2) := by
    rw [step]
    have htk := take_prefix_nl pp (fencedBlock c1 n1 lang1 hl1 body1 ++
      '\n' :: fencedBlock c2 n2 lang2 hl2 body2)
    have hdp := drop_after_nl pp (fencedBlock c1 n1 lang1 hl1 body1)
      ('\n' :: fencedBlock c2 n2 lang2 hl2 body2)
    simp only [htk, hdp]
    simp [List.append_assoc]
  have hsB2 : searchAux (fencedBlock c2 n2 lang2 hl2 body2) true =
      some (0, ⟨List.replicate n2 c2, lang2, Option.map Prod.snd hl2, bodyText body2,
        (fencedBlock c2 n2 lang2 hl2 body2).length⟩) := by
    have h := search_fencedBlock c2 n2 lang2 hl2 body2 []
      hc2 hn2 hlang2 hhl2 hbody2 (Or.inl rfl)
    rw [search, List.append_nil] at h
    exact h
  have hPP2 : ∀ x ∈ pp ++ '\n' :: '\n' :: (placeholder st.length ++ ['\n']),
      isFenceChar x = false := by
    intro x hx
    rcases List.mem_append.mp hx with h | h
    · exact hpp x h
    · rcases List.mem_cons.mp h with h1 | h1
      · rw [h1]; decide
      · rcases List.mem_cons.mp h1 with h2 | h2
        · rw [h2]; decide
        · rcases List.mem_append.mp h2 with h3 | h3
          · exact (placeholder_clean st.length x h3).1
          · simp at h3; rw [h3]; decide
  have hs2 : search ((pp ++ '\n' :: '\n' :: (placeholder st.length ++ ['\n'])) ++
      '\n' :: fencedBlock c2 n2 lang2 hl2 body2) =
      some ((pp ++ '\n' :: '\n' :: (placeholder st.length ++ ['\n'])).length + 1,
        ⟨List.replicate n2 c2, lang2, Option.map Prod.snd hl2, bodyText body2,
         (fencedBlock c2 n2 lang2 hl2 body2).length⟩) := by
    rw [search, searchAux_skip_nl _ hPP2 _ true, hsB2]
    simp
  have hstep2 : step cfg tab (st ++ [⟨some (bodyText body1), some lang1, cfg, tab⟩])
      ((pp ++ '\n' :: '\n' :: (placeholder st.length ++ ['\n'])) ++
        '\n' :: fencedBlock c2 n2 lang2 hl2 body2)
      ((pp ++ '\n' :: '\n' :: (placeholder st.length ++ ['\n'])).length + 1,
        ⟨List.replicate n2 c2, lang2, Option.map Prod.snd hl2, bodyText body2,
         (fencedBlock c2 n2 lang2 hl2 body2).length⟩) =
      (st ++ [⟨some (bodyText body1), some lang1, cfg, tab⟩,
              ⟨some (bodyText body2), some lang2, cfg, tab⟩],
       pp ++ '\n' :: ('\n' :: (placeholder st.length ++ '\n' ::
         ('\n' :: ('\n' :: (placeholder (st.length + 1) ++ ['\n'])))))) := by
    rw [step]
    have htk := take_prefix_nl (pp ++ '\n' :: '\n' :: (placeholder st.length ++ ['\n']))
      (fencedBlock c2 n2 lang2 hl2 body2)
    have hdp : ((pp ++ '\n' :: '\n' :: (placeholder st.length ++ ['\n'])) ++
        '\n' :: fencedBlock c2 n2 lang2 hl2 body2).drop
        ((pp ++ '\n' :: '\n' :: (placeholder st.length ++ ['\n'])).length + 1 +
          (fencedBlock c2 n2 lang2 hl2 body2).length) = [] := by
      have h1 : (pp ++ '\n' :: '\n' :: (placeholder st.length ++ ['\n'])) ++
          '\n' :: fencedBlock c2 n2 lang2 hl2 body2 =
          (pp ++ '\n' :: '\n' :: (placeholder st.length ++ ['\n'])) ++
          '\n' :: (fencedBlock c2 n2 lang2 hl2 body2 ++ []) := by simp
      rw [h1]
      exact drop_after_nl _ (fencedBlock c2 n2 lang2 hl2 body2) []
    simp only [htk, hdp]
    simp [List.append_assoc]
  have hs3 : search (pp ++ '\n' :: ('\n' :: (placeholder st.length ++ '\n' ::
      ('\n' :: ('\n' :: (placeholder (st.length + 1) ++ ['\n'])))))) = none := by
    rw [search]
    apply searchAux_none_of_nofence
    intro x hx
    rcases List.mem_append.mp hx with h | h
    · exact hpp x h
    · rcases List.mem_cons.mp h with h1 | h1
      · rw [h1]; decide
      · rcases List.mem_cons.mp h1 with h2 | h2
        · rw [h2]; decide
        · rcases List.mem_append.mp h2 with h3 | h3
          · exact (placeholder_clean st.length x h3).1
          · rcases List.mem_cons.mp h3 with h4 | h4
            · rw [h4]; decide
            · rcases List.mem_cons.mp h4 with h5 | h5
              · rw [h5]; decide
              · rcases List.mem_cons.mp h5 with h6 | h6
                · rw [h6]; decide
                · rcases List.mem_append.mp h6 with h7 | h7
                  · exact (placeholder_clean (st.length + 1) x h7).1
                  · simp at h7; rw [h7]; decide
  rw [run]
  simp only [joinLines_splitNl]
  rw [runLoop_unfold_norm cfg tab st _ _ hs1]
  simp only [hstep1]
  rw [runLoop_unfold_norm cfg tab _ _ _ hs2]
  simp only [hstep2]
  rw [runLoop_fix_none cfg tab _ _ hs3]

/-- C2 witness: a concrete text with a one-character prefix and two
concrete blocks (a backtick block with language tag and a tilde block)
runs to exactly two stored calls and the spliced placeholders. -/
theorem c2_witness :
    run ⟨true, true, "c", "s", false, true⟩ 4 []
      (splitNl (['p'] ++ '\n' :: (fencedBlock btick 3 ['p', 'y'] none [['a']] ++
        '\n' :: fencedBlock '~' 3 [] none [['b']]))) =
      ([⟨some (bodyText [['a']]), some ['p', 'y'], ⟨true, true, "c", "s", false, true⟩, 4⟩,
        ⟨some (bodyText [['b']]), some [], ⟨true, true, "c", "s", false, true⟩, 4⟩],
       splitNl (['p'] ++ '\n' :: ('\n' :: (placeholder 0 ++ '\n' ::
         ('\n' :: ('\n' :: (placeholder 1 ++ ['\n']))))))) := by
  have h := c2_run_frame ⟨true, true, "c", "s", false, true⟩ 4 [] ['p']
    btick '~' 3 3 ['p', 'y'] [] none none [['a']] [['b']]
    (by decide) (Or.inl rfl) (by decide) (by decide) (by decide) (by decide)
    (Or.inr rfl) (by decide) (by decide) (by decide) (by decide)
  simpa using h

/-! ## Claim C10 -/

/-- C10: two inputs identical except for the value inside the hl_lines
attribute produce the same highlighter invocation and hence the same
stashed output: the matches capture the respective hl_lines values, but
the stash entries (code body, language, config, tab width) coincide -
the hl_lines group is never passed to the highlighter. -/
theorem c10_hl_lines_independent (cfg : CHConfig) (tab : Nat)
    (st : List HighlightCall) (c : Char) (n : Nat) (lang : List Char)
    (q : Char) (v1 v2 : List Char) (body : List (List Char)) (tail : List Char)
    (hc : c = btick ∨ c = '~') (hn : 3 ≤ n)
    (hlang : ∀ x ∈ lang, isLangChar x = true)
    (hq : q = '"' ∨ q = '\'')
    (hv1 : ∀ x ∈ v1, x ≠ q) (hv2 : ∀ x ∈ v2, x ≠ q)
    (hbody : goodBody c n body) (htail : tail = [] ∨ ∃ r, tail = '\n' :: r) :
    ∃ md1 md2,
      search (fencedBlock c n lang (some (q, v1)) body ++ tail) = some (0, md1) ∧
      search (fencedBlock c n lang (some (q, v2)) body ++ tail) = some (0, md2) ∧
      md1.hl = some v1 ∧ md2.hl = some v2 ∧
      md1.code = md2.code ∧ md1.lang = md2.lang ∧
      (step cfg tab st (fencedBlock c n lang (some (q, v1)) body ++ tail) (0, md1)).1 =
        (step cfg tab st (fencedBlock c n lang (some (q, v2)) body ++ tail) (0, md2)).1 :=
  ⟨_, _,
    search_fencedBlock c n lang (some (q, v1)) body tail hc hn hlang ⟨hq, hv1⟩ hbody htail,
    search_fencedBlock c n lang (some (q, v2)) body tail hc hn hlang ⟨hq, hv2⟩ hbody htail,
    rfl, rfl, rfl, rfl, rfl⟩

/-- C10 witness. -/
theorem c10_witness :
    ∃ md1 md2,
      search (fencedBlock btick 3 ['p', 'y'] (some ('"', ['1'])) [['x']] ++ []) =
        some (0, md1) ∧
      search (fencedBlock btick 3 ['p', 'y'] (some ('"', ['2', ' ', '3'])) [['x']] ++ []) =
        some (0, md2) ∧
      md1.hl = some ['1'] ∧ md2.hl = some ['2', ' ', '3'] ∧
      md1.code = md2.code ∧ md1.lang = md2.lang ∧
      (step ⟨true, true, "c", "s", false, true⟩ 4 []
          (fencedBlock btick 3 ['p', 'y'] (some ('"', ['1'])) [['x']] ++ []) (0, md1)).1 =
        (step ⟨true, true, "c", "s", false, true⟩ 4 []
          (fencedBlock btick 3 ['p', 'y'] (some ('"', ['2', ' ', '3'])) [['x']] ++ []) (0, md2)).1 :=
  c10_hl_lines_independent ⟨true, true, "c", "s", false, true⟩ 4 [] btick 3
    ['p', 'y'] '"' ['1'] ['2', ' ', '3'] [['x']] [] (Or.inl rfl) (by decide)
    (by decide) (Or.inl rfl) (by decide) (by decide) (by decide) (Or.inl rfl)

end WikiCodehilite
